import Mathlib

/-!
# circular_output.cpp: a rolling frame recorder over a ring buffer

Shallow embedding of `src/circular_output.cpp`.

* Bytes are natural numbers; memory regions are lists of bytes.
* `size_t` arithmetic is taken modulo `2 ^ 64`, `unsigned int` arithmetic modulo `2 ^ 32`.
* The two `while` loops are recursive functions with a fuel argument; `none` means that the
  fuel ran out before the loop exited.
* The ring buffer class behind the member `cb_` is declared in `circular_output.hpp`, which is
  not among the sources; its operations are modelled from sections 3 and 4.1 of the
  specification.
* The round trip, the concrete scenario and whole-frame eviction turn on a buffer that holds
  exactly `capacity` bytes; they are stated over the ring buffer with counting cursors of the
  part `Counting`, which follows section 8 of the specification on that state.
-/

namespace CircularOutput

/-! ## Constants and the frame header -/

/-- `static constexpr int CIRCULAR_BUFFER_SIZE = 1<<22`. -/
def CIRCULAR_BUFFER_SIZE : Nat := 2 ^ 22

/-- `static constexpr int ALIGN = 16`. -/
def ALIGN : Nat := 16

/-- Modelled from the spec: the flag constant `FLAG_KEYFRAME` is declared in a header that is
not among the sources; the specification only says that `flags` carries one keyframe-indicator
bit, which is taken to be bit 0 here. -/
def FLAG_KEYFRAME : Nat := 1

/-- `struct Header { unsigned int length; bool keyframe; int64_t timestamp; }`. -/
structure Header where
  length : Nat
  keyframe : Bool
  timestamp : Int
deriving DecidableEq

/-- `sizeof(Header)`: 4 bytes of `length`, 1 byte of `keyframe`, 3 bytes of struct padding and
8 bytes of `timestamp`; the `static_assert` of the source demands a multiple of `ALIGN`. -/
def SIZEOF_HEADER : Nat := 16

/-- The object representation of a header (what `cb_.Write(&header, sizeof(header))` copies):
little-endian `length` at offset 0, `keyframe` at offset 4, struct padding at offsets 5 to 7
(taken as 0; nothing reads it back), two's complement little-endian `timestamp` at offset 8. -/
def Header.bytes (h : Header) : List Nat :=
  let l := h.length % 2 ^ 32
  let t := (h.timestamp % 2 ^ 64).toNat
  [l % 256, l / 2 ^ 8 % 256, l / 2 ^ 16 % 256, l / 2 ^ 24 % 256,
   if h.keyframe then 1 else 0, 0, 0, 0,
   t % 256, t / 2 ^ 8 % 256, t / 2 ^ 16 % 256, t / 2 ^ 24 % 256,
   t / 2 ^ 32 % 256, t / 2 ^ 40 % 256, t / 2 ^ 48 % 256, t / 2 ^ 56 % 256]

/-- The header value obtained by `memcpy`-ing 16 bytes over a `Header` object (the lambda
`[&dst](void *src, int n) { memcpy(dst, src, n); dst += n; }` of both loops). -/
def Header.ofBytes (bs : List Nat) : Header :=
  let b : Nat → Nat := fun i => bs.getD i 0
  let u : Nat := b 8 + 2 ^ 8 * b 9 + 2 ^ 16 * b 10 + 2 ^ 24 * b 11
    + 2 ^ 32 * b 12 + 2 ^ 40 * b 13 + 2 ^ 48 * b 14 + 2 ^ 56 * b 15
  { length := b 0 + 2 ^ 8 * b 1 + 2 ^ 16 * b 2 + 2 ^ 24 * b 3
    keyframe := b 4 != 0
    timestamp := if u < 2 ^ 63 then (u : Int) else (u : Int) - 2 ^ 64 }

/-! ## The ring buffer -/

/-- Modelled from the spec: the ring buffer class of the member `cb_` is declared in
`circular_output.hpp`, which is not among the sources. Section 3: a fixed total capacity, a
write cursor (next free byte) and a read cursor (oldest undelivered byte), both modulo
capacity, over an underlying storage of `capacity` bytes. -/
structure RingBuffer where
  capacity : Nat
  storage : List Nat
  read : Nat
  write : Nat
deriving DecidableEq

/-- Modelled from the spec: construction of the ring buffer, which is missing from the sources
with the rest of the class; the buffer starts empty, both cursors at offset 0. -/
def RingBuffer.create (capacity : Nat) : RingBuffer :=
  { capacity := capacity, storage := List.replicate capacity 0, read := 0, write := 0 }

/-- Modelled from the spec: `Empty()` of the missing ring buffer class, "true iff read cursor
equals write cursor". -/
def RingBuffer.Empty (rb : RingBuffer) : Bool :=
  rb.read == rb.write

/-- Modelled from the spec: `Available()` of the missing ring buffer class,
"capacity − (write − read) mod capacity"; the cursors stay below the capacity, so the cyclic
distance is computed as `(write + capacity - read) % capacity`. -/
def RingBuffer.Available (rb : RingBuffer) : Nat :=
  rb.capacity - (rb.write + rb.capacity - rb.read) % rb.capacity

/-- The bytes of `storage` at the `n` cyclic positions starting at `pos`. -/
def readBytes (storage : List Nat) (capacity pos n : Nat) : List Nat :=
  (List.range n).map (fun i => storage.getD ((pos + i) % capacity) 0)

/-- Copies `bytes` into `storage` at the cyclic positions starting at `pos`. -/
def writeAt (storage : List Nat) (capacity pos : Nat) : List Nat → List Nat
  | [] => storage
  | b :: bs => writeAt (storage.set (pos % capacity) b) capacity (pos + 1) bs

/-- Modelled from the spec: `Write(bytes)` of the missing ring buffer class, "copies the given
bytes starting at the write cursor, wrapping around the end of the underlying storage as
needed; advances the write cursor by the byte count"; no bounds check against overflow. -/
def RingBuffer.Write (rb : RingBuffer) (bytes : List Nat) : RingBuffer :=
  { rb with storage := writeAt rb.storage rb.capacity rb.write bytes
            write := (rb.write + bytes.length) % rb.capacity }

/-- Modelled from the spec: `Read(sink, n)` of the missing ring buffer class, "delivers exactly
`n` bytes to `sink` starting at the read cursor ...; advances the read cursor by `n`". The
bytes handed to the sink, over all its invocations, are the first component. -/
def RingBuffer.Read (rb : RingBuffer) (n : Nat) : List Nat × RingBuffer :=
  (readBytes rb.storage rb.capacity rb.read n, { rb with read := (rb.read + n) % rb.capacity })

/-- Modelled from the spec: `Skip(n)` of the missing ring buffer class, "advances the read
cursor by `n` bytes without delivering any data". -/
def RingBuffer.Skip (rb : RingBuffer) (n : Nat) : RingBuffer :=
  { rb with read := (rb.read + n) % rb.capacity }

/-- Modelled from the spec: `Pad(n)` of the missing ring buffer class, "advances the write
cursor by `n` bytes without writing content". -/
def RingBuffer.Pad (rb : RingBuffer) (n : Nat) : RingBuffer :=
  { rb with write := (rb.write + n) % rb.capacity }

/-! ## CircularOutput -/

/-- The state of a `CircularOutput` object: the ring buffer `cb_` and the contents written so
far to the file `fp_`. -/
structure State where
  cb_ : RingBuffer
  fp_ : List Nat
deriving DecidableEq

/-- The constructor `CircularOutput::CircularOutput` for a ring buffer of the given capacity;
`fopen(..., "w")` leaves an empty file. -/
def State.create (capacity : Nat) : State :=
  { cb_ := RingBuffer.create capacity, fp_ := [] }

/-- The constructor of the source: `cb_(CIRCULAR_BUFFER_SIZE)`. -/
def State.initial : State := State.create CIRCULAR_BUFFER_SIZE

/-- `int pad = (ALIGN - size) & (ALIGN - 1);` computed in `size_t`. -/
def padOfSize (size : Nat) : Nat :=
  ((ALIGN + 2 ^ 64 - size % 2 ^ 64) % 2 ^ 64) &&& (ALIGN - 1)

/-- `(header.length + ALIGN - 1) & ~(ALIGN - 1)` computed in `unsigned int`. -/
def skipWhole (length : Nat) : Nat :=
  ((length + ALIGN - 1) % 2 ^ 32) &&& (2 ^ 32 - ALIGN)

/-- `(ALIGN - header.length) & (ALIGN - 1)` computed in `unsigned int`. -/
def skipPad (length : Nat) : Nat :=
  ((ALIGN + 2 ^ 32 - length % 2 ^ 32) % 2 ^ 32) &&& (ALIGN - 1)

/-- How the eviction loop of `outputBuffer` was left. -/
inductive LoopExit where
  | enoughSpace
  | threw
deriving DecidableEq

/-- One eviction, the last three statements of the body of the loop of `outputBuffer`: read
the oldest header, then skip its payload and pad. -/
def evictOne (cb : RingBuffer) : RingBuffer :=
  let header := Header.ofBytes (cb.Read SIZEOF_HEADER).1
  let cb1 := (cb.Read SIZEOF_HEADER).2
  cb1.Skip (skipWhole header.length)

/-- The loop `while (size + pad + sizeof(Header) > cb_.Available())` of `outputBuffer`;
`need` is the left-hand side of the comparison. -/
def evictLoop (need : Nat) : Nat → RingBuffer → Option (RingBuffer × LoopExit)
  | 0, _ => none
  | fuel + 1, cb =>
    if need > cb.Available then
      if cb.Empty then some (cb, LoopExit.threw)
      else evictLoop need fuel (evictOne cb)
    else some (cb, LoopExit.enoughSpace)

/-- What a call of `outputBuffer` leaves behind: the object's state and the exception thrown,
if any. -/
structure Outcome where
  state : State
  error : Option String
deriving DecidableEq

/-- `void CircularOutput::outputBuffer(void *mem, size_t size, int64_t timestamp_us,
uint32_t flags)`; `mem` is the list of the `size` bytes the pointer designates. -/
def outputBuffer (fuel : Nat) (self : State) (mem : List Nat) (timestamp_us : Int)
    (flags : Nat) : Option Outcome :=
  let size := mem.length
  let pad := padOfSize size
  match evictLoop ((size + pad + SIZEOF_HEADER) % 2 ^ 64) fuel self.cb_ with
  | none => none
  | some (cb, LoopExit.threw) =>
    some { state := { self with cb_ := cb }, error := some "circular buffer too small" }
  | some (cb, LoopExit.enoughSpace) =>
    let header : Header :=
      { length := size % 2 ^ 32, keyframe := (flags &&& FLAG_KEYFRAME) != 0,
        timestamp := timestamp_us }
    let cb1 := cb.Write header.bytes
    let cb2 := cb1.Write mem
    some { state := { self with cb_ := cb2.Pad pad }, error := none }

/-- What the destructor leaves behind: the drained object (with the final file contents) and
the two counters it prints. -/
structure Report where
  state : State
  total : Nat
  frames : Nat
deriving DecidableEq

/-- The loop `while (!cb_.Empty())` of `~CircularOutput`, with its local variables. -/
def flushLoop : Nat → RingBuffer → List Nat → Nat → Nat → Bool → Option Report
  | 0, _, _, _, _, _ => none
  | fuel + 1, cb, fp, total, frames, seen_keyframe =>
    if !cb.Empty then
      let header := Header.ofBytes (cb.Read SIZEOF_HEADER).1
      let cb1 := (cb.Read SIZEOF_HEADER).2
      let seen := seen_keyframe || header.keyframe
      if seen then
        let data := (cb1.Read header.length).1
        let cb2 := (cb1.Read header.length).2
        flushLoop fuel (cb2.Skip (skipPad header.length)) (fp ++ data)
          ((total + header.length) % 2 ^ 32) ((frames + 1) % 2 ^ 32) seen
      else
        flushLoop fuel (cb1.Skip (skipWhole header.length)) fp total frames seen
    else some { state := { cb_ := cb, fp_ := fp }, total := total, frames := frames }

/-- `CircularOutput::~CircularOutput()`. -/
def destructor (fuel : Nat) (self : State) : Option Report :=
  flushLoop fuel self.cb_ self.fp_ 0 0 false

/-! ## Frames resident in the buffer -/

/-- The pad that rounds a payload of `length` bytes up to a multiple of 16. -/
def padTo16 (length : Nat) : Nat := (16 - length % 16) % 16

/-- A frame: its header and its `header.length` payload bytes. -/
structure Frame where
  header : Header
  payload : List Nat
deriving DecidableEq

/-- The bytes a frame occupies in the buffer: header, payload and pad. -/
def Frame.footprint (f : Frame) : Nat :=
  SIZEOF_HEADER + f.header.length + padTo16 f.header.length

/-- The bytes a sequence of frames occupies. -/
def footprints : List Frame → Nat
  | [] => 0
  | f :: fs => f.footprint + footprints fs

/-- The frames `fs` lie one after the other in the storage from the cyclic position `pos` on:
each a header, then `header.length` payload bytes, then the pad. -/
def storedAt (storage : List Nat) (capacity : Nat) : Nat → List Frame → Prop
  | _, [] => True
  | pos, f :: fs =>
    readBytes storage capacity pos SIZEOF_HEADER = f.header.bytes ∧
    readBytes storage capacity (pos + SIZEOF_HEADER) f.header.length = f.payload ∧
    storedAt storage capacity (pos + f.footprint) fs

instance storedAtDecidable (storage : List Nat) (capacity : Nat) :
    (pos : Nat) → (fs : List Frame) → Decidable (storedAt storage capacity pos fs)
  | _, [] => isTrue trivial
  | pos, f :: fs =>
    have := storedAtDecidable storage capacity (pos + f.footprint) fs
    inferInstanceAs (Decidable (_ ∧ _ ∧ _))

/-- The resident frames of a ring buffer are `fs`: the cyclic region from the read cursor to
the write cursor consists of exactly the frames `fs`, the first starting at the read cursor and
the last ending at the write cursor. -/
def Resident (cb : RingBuffer) (fs : List Frame) : Prop :=
  cb.storage.length = cb.capacity ∧ cb.read < cb.capacity ∧
  footprints fs < cb.capacity ∧ cb.write = (cb.read + footprints fs) % cb.capacity ∧
  storedAt cb.storage cb.capacity cb.read fs

instance (cb : RingBuffer) (fs : List Frame) : Decidable (Resident cb fs) :=
  inferInstanceAs (Decidable (_ ∧ _ ∧ _ ∧ _ ∧ _))

/-- The frame a call `outputBuffer(mem, size, timestamp_us, flags)` stores. -/
def newFrame (mem : List Nat) (timestamp_us : Int) (flags : Nat) : Frame :=
  { header := { length := mem.length % 2 ^ 32, keyframe := (flags &&& FLAG_KEYFRAME) != 0,
                timestamp := timestamp_us }
    payload := mem }

/-- The arguments of one call `outputBuffer(mem, size, timestamp_us, flags)`; `size` is the
length of `mem`. -/
structure Call where
  mem : List Nat
  timestamp_us : Int
  flags : Nat
deriving DecidableEq

/-- The frame a call of `outputBuffer` stores. -/
def Call.frame (c : Call) : Frame := newFrame c.mem c.timestamp_us c.flags

/-- The states of a `CircularOutput` object with a ring buffer of the given capacity that the
sequence `calls` of `outputBuffer` calls, successful or failed, reaches from construction. The
`size` of a call is the size of an object in memory, hence below `2 ^ 63`. -/
inductive Reachable (capacity : Nat) : List Call → State → Prop
  | create : Reachable capacity [] (State.create capacity)
  | call {calls : List Call} {self : State} {fuel : Nat} {c : Call} {out : Outcome} :
      Reachable capacity calls self → c.mem.length < 2 ^ 63 →
      outputBuffer fuel self c.mem c.timestamp_us c.flags = some out →
      Reachable capacity (calls ++ [c]) out.state

/-- The footprint of a frame with `size` payload bytes: header, payload and pad. -/
def footprintOfSize (size : Nat) : Nat := SIZEOF_HEADER + size + padTo16 size

/-- The payload bytes of a sequence of frames, one after the other. -/
def payloads : List Frame → List Nat
  | [] => []
  | f :: fs => f.payload ++ payloads fs

/-- The sum of `header.length` over a sequence of frames. -/
def lengths : List Frame → Nat
  | [] => 0
  | f :: fs => f.header.length + lengths fs

/-- The frames from the first one whose header has `keyframe = true` on. -/
def fromFirstKeyframe : List Frame → List Frame
  | [] => []
  | f :: fs => if f.header.keyframe then f :: fs else fromFirstKeyframe fs

/-- The frames the flush writes: all of them once a keyframe has been seen, otherwise those
from the first keyframe on. -/
def flushed (seen_keyframe : Bool) (fs : List Frame) : List Frame :=
  if seen_keyframe then fs else fromFirstKeyframe fs

/-- The buffer after it has been drained: the read cursor has caught up with the write
cursor. -/
def RingBuffer.drained (cb : RingBuffer) : RingBuffer :=
  { capacity := cb.capacity, storage := cb.storage, read := cb.write, write := cb.write }

/-- A sequence of `outputBuffer` calls, one after the other; `none` when a call runs out of
fuel or throws. -/
def appendAll (fuel : Nat) : State → List Call → Option State
  | self, [] => some self
  | self, c :: cs =>
    match outputBuffer fuel self c.mem c.timestamp_us c.flags with
    | some out => if out.error = none then appendAll fuel out.state cs else none
    | none => none

/-- Five calls with keyframe flags `[true, false, false, true, false]`. -/
def exampleCalls : List Call :=
  [⟨[1, 2, 3], 1000, 1⟩, ⟨[4], 2000, 0⟩, ⟨[5, 6], 3000, 0⟩, ⟨[7, 8, 9], 4000, 1⟩,
   ⟨[10], 5000, 0⟩]

/-- The state after `exampleCalls` on a buffer of 176 bytes. -/
def exampleState : State :=
  (appendAll 1 (State.create 176) exampleCalls).getD (State.create 176)

/-- The example state after a further call with 20 payload bytes, which fits after evictions
of whole frames. -/
def exampleAppended : Outcome :=
  (outputBuffer 12 exampleState (List.replicate 20 7) 6000 0).getD
    { state := exampleState, error := none }

/-- The example state after a further call with 200 payload bytes, which cannot fit. -/
def exampleFailed : Outcome :=
  (outputBuffer 12 exampleState (List.replicate 200 7) 6000 1).getD
    { state := exampleState, error := none }

/-- Two calls without the keyframe bit. -/
def plainCalls : List Call := [⟨[1, 2, 3], 1000, 0⟩, ⟨[4], 2000, 2⟩]

/-- The state after `plainCalls` on a buffer of 176 bytes. -/
def plainState : State :=
  (appendAll 1 (State.create 176) plainCalls).getD (State.create 176)

/-- The cumulative footprint of a sequence of calls: the sum of
`sizeof(Header) + size + pad` over the frames. -/
def cumulativeFootprint : List Call → Nat
  | [] => 0
  | c :: cs => SIZEOF_HEADER + c.mem.length + padOfSize c.mem.length + cumulativeFootprint cs

/-- The frame of a call as the round trip must return it: exact length, keyframe flag,
timestamp and payload bytes. -/
def Call.exact (c : Call) : Frame :=
  { header := { length := c.mem.length, keyframe := (c.flags &&& FLAG_KEYFRAME) != 0,
                timestamp := c.timestamp_us }
    payload := c.mem }

/-- The frames of the concrete scenario, 8 payload bytes each: A is a keyframe, B and C are
not. -/
def frameA : Call := ⟨[1, 1, 1, 1, 1, 1, 1, 1], 100, 1⟩

/-- Frame B of the concrete scenario. -/
def frameB : Call := ⟨[2, 2, 2, 2, 2, 2, 2, 2], 200, 0⟩

/-- Frame C of the concrete scenario. -/
def frameC : Call := ⟨[3, 3, 3, 3, 3, 3, 3, 3], 300, 0⟩

/-- One iteration of the body of the loop of `~CircularOutput`, as far as the buffer and the
sticky flag go: the buffer and `seen_keyframe` at the end of the iteration. -/
def flushStep (cb : RingBuffer) (seen_keyframe : Bool) : RingBuffer × Bool :=
  let header := Header.ofBytes (cb.Read SIZEOF_HEADER).1
  let cb1 := (cb.Read SIZEOF_HEADER).2
  let seen := seen_keyframe || header.keyframe
  if seen then ((cb1.Read header.length).2.Skip (skipPad header.length), seen)
  else (cb1.Skip (skipWhole header.length), seen)

/-- The buffer and the sticky flag after `j` iterations of the loop of `~CircularOutput`. -/
def flushAfter (j : Nat) (cb : RingBuffer) (seen_keyframe : Bool) : RingBuffer × Bool :=
  (fun s : RingBuffer × Bool => flushStep s.1 s.2)^[j] (cb, seen_keyframe)

/-! ## The ring buffer with counting cursors

Sections 3 and 8 of the specification disagree on a buffer that holds exactly `capacity`
bytes: by the formulas of section 3, taken on cursors reduced modulo the capacity, it cannot
be told from an empty one, while section 8 calls it "full at 64" and has the next append evict.
The definitions of this part follow section 8: the cursors count bytes and a cursor
designates the storage position `cursor % capacity`. The member functions of
`CircularOutput` are embedded over them exactly as above. -/

namespace Counting

/-- Modelled from the spec: the ring buffer class of the member `cb_`, declared in
`circular_output.hpp`, which is not among the sources, in the reading of section 8 ("buffer
now full at 64", then "eviction of A"): the write cursor counts the bytes written or padded,
the read cursor the bytes read or skipped, and a cursor designates the storage position
`cursor % capacity`. -/
structure RingBuffer where
  capacity : Nat
  storage : List Nat
  read : Nat
  write : Nat
deriving DecidableEq

/-- Modelled from the spec: construction of the missing ring buffer class; the buffer starts
empty, both cursors at 0. -/
def RingBuffer.create (capacity : Nat) : RingBuffer :=
  { capacity := capacity, storage := List.replicate capacity 0, read := 0, write := 0 }

/-- Modelled from the spec: `Empty()` of the missing ring buffer class, "true iff read cursor
equals write cursor". -/
def RingBuffer.Empty (rb : RingBuffer) : Bool :=
  rb.read == rb.write

/-- Modelled from the spec: `Available()` of the missing ring buffer class, the "free capacity
in bytes": the capacity less the bytes between the read and the write cursor, so that the
buffer of section 8 that is "full at 64" has nothing available. -/
def RingBuffer.Available (rb : RingBuffer) : Nat :=
  rb.capacity - (rb.write - rb.read)

/-- Modelled from the spec: `Write(bytes)` of the missing ring buffer class, "copies the given
bytes starting at the write cursor, wrapping around the end of the underlying storage as
needed; advances the write cursor by the byte count". -/
def RingBuffer.Write (rb : RingBuffer) (bytes : List Nat) : RingBuffer :=
  { rb with storage := writeAt rb.storage rb.capacity rb.write bytes
            write := rb.write + bytes.length }

/-- Modelled from the spec: `Read(sink, n)` of the missing ring buffer class, "delivers exactly
`n` bytes to `sink` starting at the read cursor ...; advances the read cursor by `n`". -/
def RingBuffer.Read (rb : RingBuffer) (n : Nat) : List Nat × RingBuffer :=
  (readBytes rb.storage rb.capacity rb.read n, { rb with read := rb.read + n })

/-- Modelled from the spec: `Skip(n)` of the missing ring buffer class, "advances the read
cursor by `n` bytes without delivering any data". -/
def RingBuffer.Skip (rb : RingBuffer) (n : Nat) : RingBuffer :=
  { rb with read := rb.read + n }

/-- Modelled from the spec: `Pad(n)` of the missing ring buffer class, "advances the write
cursor by `n` bytes without writing content". -/
def RingBuffer.Pad (rb : RingBuffer) (n : Nat) : RingBuffer :=
  { rb with write := rb.write + n }

/-- The buffer after it has been drained: the read cursor has caught up with the write
cursor. -/
def RingBuffer.drained (cb : RingBuffer) : RingBuffer :=
  { capacity := cb.capacity, storage := cb.storage, read := cb.write, write := cb.write }

/-- The state of a `CircularOutput` object: the ring buffer `cb_` and the contents written so
far to the file `fp_`. -/
structure State where
  cb_ : RingBuffer
  fp_ : List Nat
deriving DecidableEq

/-- The constructor `CircularOutput::CircularOutput` for a ring buffer of the given capacity;
`fopen(..., "w")` leaves an empty file. -/
def State.create (capacity : Nat) : State :=
  { cb_ := RingBuffer.create capacity, fp_ := [] }

/-- One eviction, the last three statements of the body of the loop of `outputBuffer`: read
the oldest header, then skip its payload and pad. -/
def evictOne (cb : RingBuffer) : RingBuffer :=
  let header := Header.ofBytes (cb.Read SIZEOF_HEADER).1
  let cb1 := (cb.Read SIZEOF_HEADER).2
  cb1.Skip (skipWhole header.length)

/-- The loop `while (size + pad + sizeof(Header) > cb_.Available())` of `outputBuffer`;
`need` is the left-hand side of the comparison. -/
def evictLoop (need : Nat) : Nat → RingBuffer → Option (RingBuffer × LoopExit)
  | 0, _ => none
  | fuel + 1, cb =>
    if need > cb.Available then
      if cb.Empty then some (cb, LoopExit.threw)
      else evictLoop need fuel (evictOne cb)
    else some (cb, LoopExit.enoughSpace)

/-- What a call of `outputBuffer` leaves behind: the object's state and the exception thrown,
if any. -/
structure Outcome where
  state : State
  error : Option String
deriving DecidableEq

/-- `void CircularOutput::outputBuffer(void *mem, size_t size, int64_t timestamp_us,
uint32_t flags)`; `mem` is the list of the `size` bytes the pointer designates. -/
def outputBuffer (fuel : Nat) (self : State) (mem : List Nat) (timestamp_us : Int)
    (flags : Nat) : Option Outcome :=
  let size := mem.length
  let pad := padOfSize size
  match evictLoop ((size + pad + SIZEOF_HEADER) % 2 ^ 64) fuel self.cb_ with
  | none => none
  | some (cb, LoopExit.threw) =>
    some { state := { self with cb_ := cb }, error := some "circular buffer too small" }
  | some (cb, LoopExit.enoughSpace) =>
    let header : Header :=
      { length := size % 2 ^ 32, keyframe := (flags &&& FLAG_KEYFRAME) != 0,
        timestamp := timestamp_us }
    let cb1 := cb.Write header.bytes
    let cb2 := cb1.Write mem
    some { state := { self with cb_ := cb2.Pad pad }, error := none }

/-- What the destructor leaves behind: the drained object (with the final file contents) and
the two counters it prints. -/
structure Report where
  state : State
  total : Nat
  frames : Nat
deriving DecidableEq

/-- The loop `while (!cb_.Empty())` of `~CircularOutput`, with its local variables. -/
def flushLoop : Nat → RingBuffer → List Nat → Nat → Nat → Bool → Option Report
  | 0, _, _, _, _, _ => none
  | fuel + 1, cb, fp, total, frames, seen_keyframe =>
    if !cb.Empty then
      let header := Header.ofBytes (cb.Read SIZEOF_HEADER).1
      let cb1 := (cb.Read SIZEOF_HEADER).2
      let seen := seen_keyframe || header.keyframe
      if seen then
        let data := (cb1.Read header.length).1
        let cb2 := (cb1.Read header.length).2
        flushLoop fuel (cb2.Skip (skipPad header.length)) (fp ++ data)
          ((total + header.length) % 2 ^ 32) ((frames + 1) % 2 ^ 32) seen
      else
        flushLoop fuel (cb1.Skip (skipWhole header.length)) fp total frames seen
    else some { state := { cb_ := cb, fp_ := fp }, total := total, frames := frames }

/-- `CircularOutput::~CircularOutput()`. -/
def destructor (fuel : Nat) (self : State) : Option Report :=
  flushLoop fuel self.cb_ self.fp_ 0 0 false

/-- The drain of the round-trip property: until the buffer is `Empty()`, read a header, read
`header.length` payload bytes, skip the pad; the frames read are collected in order. This is
the loop of the destructor without the test of the keyframe flag. -/
def drainLoop : Nat → RingBuffer → List Frame → Option (List Frame × RingBuffer)
  | 0, _, _ => none
  | fuel + 1, cb, acc =>
    if !cb.Empty then
      let header := Header.ofBytes (cb.Read SIZEOF_HEADER).1
      let cb1 := (cb.Read SIZEOF_HEADER).2
      let data := (cb1.Read header.length).1
      let cb2 := (cb1.Read header.length).2
      drainLoop fuel (cb2.Skip (skipPad header.length))
        (acc ++ [{ header := header, payload := data }])
    else some (acc, cb)

/-- A sequence of `outputBuffer` calls, one after the other; `none` when a call runs out of
fuel or throws. -/
def appendAll (fuel : Nat) : State → List Call → Option State
  | self, [] => some self
  | self, c :: cs =>
    match outputBuffer fuel self c.mem c.timestamp_us c.flags with
    | some out => if out.error = none then appendAll fuel out.state cs else none
    | none => none

/-- The resident frames of a ring buffer are `fs`: the region from the read cursor to the
write cursor consists of exactly the frames `fs`, the first starting at the read cursor and
the last ending at the write cursor. -/
def Resident (cb : RingBuffer) (fs : List Frame) : Prop :=
  cb.storage.length = cb.capacity ∧ footprints fs ≤ cb.capacity ∧
  cb.write = cb.read + footprints fs ∧ storedAt cb.storage cb.capacity cb.read fs

instance (cb : RingBuffer) (fs : List Frame) : Decidable (Resident cb fs) :=
  inferInstanceAs (Decidable (_ ∧ _ ∧ _ ∧ _))

/-- The states of a `CircularOutput` object with a ring buffer of the given capacity that the
sequence `calls` of `outputBuffer` calls, successful or failed, reaches from construction. The
`size` of a call is the size of an object in memory, hence below `2 ^ 63`. -/
inductive Reachable (capacity : Nat) : List Call → State → Prop
  | create : Reachable capacity [] (State.create capacity)
  | call {calls : List Call} {self : State} {fuel : Nat} {c : Call} {out : Outcome} :
      Reachable capacity calls self → c.mem.length < 2 ^ 63 →
      outputBuffer fuel self c.mem c.timestamp_us c.flags = some out →
      Reachable capacity (calls ++ [c]) out.state

/-- The buffer of 64 bytes of the concrete scenario after the appends of A and B. -/
def scenarioAB : State :=
  (appendAll 3 (State.create 64) [frameA, frameB]).getD (State.create 64)

/-- The buffer of 64 bytes of the concrete scenario after the appends of A, B and C. -/
def scenarioABC : State :=
  (appendAll 3 (State.create 64) [frameA, frameB, frameC]).getD (State.create 64)

end Counting

/-! ## Arithmetic of the alignment expressions -/

theorem and_high_mask (x : Nat) (h : x < 2 ^ 32) : x &&& (2 ^ 32 - 16) = x / 16 * 16 := by
  apply Nat.eq_of_testBit_eq
  intro i
  have e : (2 ^ 32 - 16 : Nat) = 2 ^ 4 * (2 ^ 28 - 1) := by norm_num
  have e2 : x / 16 * 16 = 2 ^ 4 * (x >>> 4) := by
    rw [Nat.shiftRight_eq_div_pow]; norm_num [Nat.mul_comm]
  rw [Nat.testBit_and, e, Nat.testBit_mul_pow_two, Nat.testBit_two_pow_sub_one]
  rw [e2, Nat.testBit_mul_pow_two, Nat.testBit_shiftRight]
  have h5 : 4 ≤ i → 4 + (i - 4) = i := by omega
  by_cases h4 : 4 ≤ i
  · by_cases h32 : i < 32
    · have : i - 4 < 28 := by omega
      simp [h4, this, h5 h4]
    · have : x.testBit i = false := by
        apply Nat.testBit_lt_two_pow
        calc x < 2 ^ 32 := h
          _ ≤ 2 ^ i := Nat.pow_le_pow_right (by norm_num) (by omega)
      simp [this, h5 h4]
  · simp [h4]

theorem and_low_mask (x : Nat) : x &&& 15 = x % 16 := by
  have := Nat.and_pow_two_sub_one_eq_mod x 4
  simpa using this

theorem padOfSize_eq (size : Nat) : padOfSize size = padTo16 size := by
  unfold padOfSize padTo16 ALIGN
  rw [show (16 - 1 : Nat) = 15 from rfl, and_low_mask]
  omega

theorem skipPad_eq (length : Nat) : skipPad length = padTo16 length := by
  unfold skipPad padTo16 ALIGN
  rw [show (16 - 1 : Nat) = 15 from rfl, and_low_mask]
  omega

theorem skipWhole_eq (length : Nat) (h : length + 15 < 2 ^ 32) :
    skipWhole length = length + padTo16 length := by
  unfold skipWhole padTo16 ALIGN
  rw [and_high_mask _ (Nat.mod_lt _ (by norm_num))]
  omega

/-! ## The header representation -/

theorem Header.length_bytes (h : Header) : h.bytes.length = 16 := rfl

theorem Header.ofBytes_bytes_length (h : Header) :
    (Header.ofBytes h.bytes).length = h.length % 2 ^ 32 := by
  simp only [Header.ofBytes, Header.bytes, List.getD_cons_zero, List.getD_cons_succ]
  omega

theorem Header.ofBytes_bytes_keyframe (h : Header) :
    (Header.ofBytes h.bytes).keyframe = h.keyframe := by
  cases hk : h.keyframe <;> simp [Header.ofBytes, Header.bytes, hk]

theorem Header.ofBytes_bytes_timestamp (h : Header) (lo : -2 ^ 63 ≤ h.timestamp)
    (hi : h.timestamp < 2 ^ 63) : (Header.ofBytes h.bytes).timestamp = h.timestamp := by
  simp only [Header.ofBytes, Header.bytes, List.getD_cons_zero, List.getD_cons_succ]
  generalize ht : (h.timestamp % 2 ^ 64).toNat = t
  have h1 : ((t : Int)) = h.timestamp % 2 ^ 64 := by
    rw [← ht]; exact Int.toNat_of_nonneg (Int.emod_nonneg _ (by norm_num))
  have h2 : t % 256 + 2 ^ 8 * (t / 2 ^ 8 % 256) + 2 ^ 16 * (t / 2 ^ 16 % 256)
      + 2 ^ 24 * (t / 2 ^ 24 % 256) + 2 ^ 32 * (t / 2 ^ 32 % 256) + 2 ^ 40 * (t / 2 ^ 40 % 256)
      + 2 ^ 48 * (t / 2 ^ 48 % 256) + 2 ^ 56 * (t / 2 ^ 56 % 256) = t % 2 ^ 64 := by omega
  have h3 : t < 2 ^ 64 := by omega
  rw [h2, Nat.mod_eq_of_lt h3]
  split <;> omega

/-! ## Reading and writing cyclic regions -/

theorem mod_add_ne {capacity a d : Nat} (h0 : 0 < d) (h1 : d < capacity) :
    (a + d) % capacity ≠ a % capacity := by
  intro h
  have h2 : a ≡ a + d [MOD capacity] := h.symm
  have h3 := (Nat.modEq_iff_dvd' (Nat.le_add_right a d)).1 h2
  rw [Nat.add_sub_cancel_left] at h3
  exact absurd (Nat.le_of_dvd h0 h3) (by omega)

theorem mod_ne_of_lt {capacity p a b : Nat} (hab : a < b) (hb : b < a + capacity) :
    (p + a) % capacity ≠ (p + b) % capacity := by
  have := @mod_add_ne capacity (p + a) (b - a) (by omega) (by omega)
  rw [show p + a + (b - a) = p + b by omega] at this
  exact fun h => this h.symm

theorem length_readBytes (storage : List Nat) (capacity pos n : Nat) :
    (readBytes storage capacity pos n).length = n := by
  simp [readBytes]

theorem readBytes_congr {storage storage2 : List Nat} {capacity pos pos2 n : Nat}
    (h : ∀ i, i < n → storage.getD ((pos + i) % capacity) 0
      = storage2.getD ((pos2 + i) % capacity) 0) :
    readBytes storage capacity pos n = readBytes storage2 capacity pos2 n := by
  unfold readBytes
  apply List.map_congr_left
  intro i hi
  exact h i (List.mem_range.1 hi)

theorem readBytes_mod (storage : List Nat) (capacity pos n : Nat) :
    readBytes storage capacity (pos % capacity) n = readBytes storage capacity pos n := by
  apply readBytes_congr
  intro i _
  rw [Nat.mod_add_mod]

theorem readBytes_add (storage : List Nat) (capacity pos m n : Nat) :
    readBytes storage capacity pos (m + n)
      = readBytes storage capacity pos m ++ readBytes storage capacity (pos + m) n := by
  unfold readBytes
  rw [List.range_add, List.map_append, List.map_map]
  congr 1
  apply List.map_congr_left
  intro i _
  simp [Nat.add_assoc]

theorem length_writeAt (storage : List Nat) (capacity pos : Nat) (bytes : List Nat) :
    (writeAt storage capacity pos bytes).length = storage.length := by
  induction bytes generalizing storage pos with
  | nil => rfl
  | cons b bs ih => simp [writeAt, ih]

theorem writeAt_append (storage : List Nat) (capacity pos : Nat) (xs ys : List Nat) :
    writeAt storage capacity pos (xs ++ ys)
      = writeAt (writeAt storage capacity pos xs) capacity (pos + xs.length) ys := by
  induction xs generalizing storage pos with
  | nil => rfl
  | cons b bs ih =>
    show writeAt (storage.set (pos % capacity) b) capacity (pos + 1) (bs ++ ys) = _
    rw [ih]
    simp only [writeAt, List.length_cons]
    rw [show pos + 1 + bs.length = pos + (bs.length + 1) by omega]

theorem writeAt_mod (storage : List Nat) (capacity pos : Nat) (bytes : List Nat) :
    writeAt storage capacity (pos % capacity) bytes = writeAt storage capacity pos bytes := by
  induction bytes generalizing storage pos with
  | nil => rfl
  | cons b bs ih =>
    simp only [writeAt, Nat.mod_mod]
    rw [← ih _ (pos % capacity + 1), ← ih _ (pos + 1), Nat.mod_add_mod]

theorem getD_writeAt_of_ne (storage : List Nat) (capacity pos p : Nat) (bytes : List Nat)
    (h : ∀ i, i < bytes.length → (pos + i) % capacity ≠ p) :
    (writeAt storage capacity pos bytes).getD p 0 = storage.getD p 0 := by
  induction bytes generalizing storage pos with
  | nil => rfl
  | cons b bs ih =>
    simp only [writeAt]
    rw [ih]
    · have h0 := h 0 (by simp)
      simp only [Nat.add_zero] at h0
      simp [List.getD_eq_getElem?_getD, List.getElem?_set, h0]
    · intro i hi
      have := h (i + 1) (by simpa using hi)
      rwa [show pos + (i + 1) = pos + 1 + i by omega] at this

theorem getD_writeAt_of_lt (storage : List Nat) (capacity pos i : Nat) (bytes : List Nat)
    (hs : storage.length = capacity) (hn : bytes.length ≤ capacity) (hi : i < bytes.length) :
    (writeAt storage capacity pos bytes).getD ((pos + i) % capacity) 0 = bytes.getD i 0 := by
  induction bytes generalizing storage pos i with
  | nil => simp at hi
  | cons b bs ih =>
    simp only [writeAt]
    simp only [List.length_cons] at hn hi
    cases i with
    | zero =>
      rw [getD_writeAt_of_ne]
      · have : pos % capacity < storage.length := by rw [hs]; exact Nat.mod_lt _ (by omega)
        simp [List.getD_eq_getElem?_getD, List.getElem?_set, this]
      · intro j hj
        rw [Nat.add_zero, Nat.add_assoc]
        exact mod_add_ne (by omega) (by omega)
    | succ i =>
      rw [show pos + (i + 1) = pos + 1 + i by omega, ih _ _ _ (by simpa using hs) (by omega)
        (by omega)]
      simp

theorem readBytes_writeAt_same (storage : List Nat) (capacity pos : Nat) (bytes : List Nat)
    (hs : storage.length = capacity) (hn : bytes.length ≤ capacity) :
    readBytes (writeAt storage capacity pos bytes) capacity pos bytes.length = bytes := by
  apply List.ext_getElem
  · simp [readBytes]
  · intro i h1 h2
    simp only [readBytes, List.getElem_map, List.getElem_range]
    rw [getD_writeAt_of_lt _ _ _ _ _ hs hn h2]
    simp [List.getD_eq_getElem?_getD, h2]

theorem readBytes_writeAt_of_disjoint (storage : List Nat) (capacity pos q n : Nat)
    (bytes : List Nat)
    (h : ∀ i j, i < n → j < bytes.length → (pos + j) % capacity ≠ (q + i) % capacity) :
    readBytes (writeAt storage capacity pos bytes) capacity q n
      = readBytes storage capacity q n := by
  apply readBytes_congr
  intro i hi
  exact getD_writeAt_of_ne _ _ _ _ _ (fun j hj => h i j hi hj)

/-! ## Frames laid out in the storage -/

theorem footprints_append (fs gs : List Frame) :
    footprints (fs ++ gs) = footprints fs + footprints gs := by
  induction fs with
  | nil => simp [footprints]
  | cons f fs ih => simp [footprints, ih, Nat.add_assoc]

theorem Frame.footprint_pos (f : Frame) : 16 ≤ f.footprint := by
  unfold Frame.footprint SIZEOF_HEADER; omega

theorem footprints_eq_zero {fs : List Frame} (h : footprints fs = 0) : fs = [] := by
  cases fs with
  | nil => rfl
  | cons f fs => have := f.footprint_pos; simp [footprints] at h; omega

theorem length_le_footprints (fs : List Frame) : 16 * fs.length ≤ footprints fs := by
  induction fs with
  | nil => simp [footprints]
  | cons f fs ih => have := f.footprint_pos; simp only [footprints, List.length_cons]; omega

theorem footprints_drop_le (fs : List Frame) (k : Nat) :
    footprints (fs.drop k) ≤ footprints fs := by
  have := footprints_append (fs.take k) (fs.drop k)
  rw [List.take_append_drop] at this
  omega

theorem storedAt_congr_pos {storage : List Nat} {capacity : Nat} (fs : List Frame) {p q : Nat}
    (h : p % capacity = q % capacity) :
    storedAt storage capacity p fs ↔ storedAt storage capacity q fs := by
  induction fs generalizing p q with
  | nil => simp [storedAt]
  | cons f fs ih =>
    have e : ∀ k n, readBytes storage capacity (p + k) n = readBytes storage capacity (q + k) n := by
      intro k n
      apply readBytes_congr
      intro i _
      rw [Nat.add_assoc, Nat.add_assoc, Nat.add_mod p, Nat.add_mod q, h]
    have e0 := e 0
    simp only [Nat.add_zero] at e0
    simp only [storedAt, e, e0]
    rw [ih (p := p + f.footprint) (q := q + f.footprint) (by rw [Nat.add_mod p, Nat.add_mod q, h])]

theorem storedAt_append {storage : List Nat} {capacity : Nat} (fs gs : List Frame) (pos : Nat) :
    storedAt storage capacity pos (fs ++ gs)
      ↔ storedAt storage capacity pos fs ∧ storedAt storage capacity (pos + footprints fs) gs := by
  induction fs generalizing pos with
  | nil => simp [storedAt, footprints]
  | cons f fs ih =>
    simp only [List.cons_append, storedAt, footprints, List.append_eq, ih, Nat.add_assoc,
      and_assoc]

theorem storedAt_writeAt {storage : List Nat} {capacity r u : Nat} (bytes : List Nat)
    (hw : u + bytes.length ≤ capacity) (fs : List Frame) (o : Nat)
    (ho : o + footprints fs ≤ u) (h : storedAt storage capacity (r + o) fs) :
    storedAt (writeAt storage capacity (r + u) bytes) capacity (r + o) fs := by
  induction fs generalizing o with
  | nil => trivial
  | cons f fs ih =>
    simp only [storedAt, footprints] at h ho ⊢
    obtain ⟨h1, h2, h3⟩ := h
    have hf : f.footprint = 16 + f.header.length + padTo16 f.header.length := rfl
    refine ⟨?_, ?_, ?_⟩
    · rw [readBytes_writeAt_of_disjoint, h1]
      intro i j hi hj
      simp only [SIZEOF_HEADER] at hi
      rw [Nat.add_assoc, Nat.add_assoc]
      exact fun e => mod_ne_of_lt (a := o + i) (b := u + j) (by omega) (by omega) e.symm
    · rw [readBytes_writeAt_of_disjoint, h2]
      intro i j hi hj
      simp only [SIZEOF_HEADER]
      rw [Nat.add_assoc, Nat.add_assoc, Nat.add_assoc]
      exact fun e => mod_ne_of_lt (a := o + (16 + i)) (b := u + j) (by omega) (by omega) e.symm
    · rw [Nat.add_assoc]
      apply ih
      · omega
      · rw [← Nat.add_assoc]; exact h3

theorem payload_length_of_storedAt {storage : List Nat} {capacity pos : Nat} {f : Frame}
    {fs : List Frame} (h : storedAt storage capacity pos (f :: fs)) :
    f.payload.length = f.header.length := by
  have := congrArg List.length h.2.1
  rw [length_readBytes] at this
  exact this.symm

/-! ## The cursors of a buffer with resident frames -/

theorem cyclic_distance {capacity r u : Nat} (hr : r < capacity) (hu : u < capacity) :
    ((r + u) % capacity + capacity - r) % capacity = u := by
  by_cases h : r + u < capacity
  · rw [Nat.mod_eq_of_lt h, show r + u + capacity - r = u + capacity by omega,
      Nat.add_mod_right, Nat.mod_eq_of_lt hu]
  · have e : (r + u) % capacity = r + u - capacity := by
      rw [Nat.mod_eq_sub_mod (by omega), Nat.mod_eq_of_lt (by omega)]
    rw [e, show r + u - capacity + capacity - r = u by omega, Nat.mod_eq_of_lt hu]

theorem Resident.available {cb : RingBuffer} {fs : List Frame} (h : Resident cb fs) :
    cb.Available = cb.capacity - footprints fs := by
  obtain ⟨_, hr, hu, hw, _⟩ := h
  unfold RingBuffer.Available
  rw [hw, cyclic_distance hr hu]

theorem Resident.empty_iff {cb : RingBuffer} {fs : List Frame} (h : Resident cb fs) :
    cb.Empty = true ↔ fs = [] := by
  obtain ⟨_, hr, hu, hw, _⟩ := h
  have hd := cyclic_distance hr hu
  rw [← hw] at hd
  simp only [RingBuffer.Empty, beq_iff_eq]
  constructor
  · intro e
    rw [← e, show cb.read + cb.capacity - cb.read = cb.capacity by omega, Nat.mod_self] at hd
    exact footprints_eq_zero hd.symm
  · intro e
    subst e
    simp only [footprints, Nat.add_zero] at hw
    rw [hw, Nat.mod_eq_of_lt hr]

theorem Resident.create {capacity : Nat} (h : 0 < capacity) :
    Resident (RingBuffer.create capacity) [] := by
  simp [Resident, RingBuffer.create, footprints, storedAt, h]

theorem footprint_le_footprints {f : Frame} {fs : List Frame} (hf : f ∈ fs) :
    f.footprint ≤ footprints fs := by
  induction fs with
  | nil => simp at hf
  | cons g gs ih =>
    simp only [footprints]
    rcases List.mem_cons.1 hf with e | e
    · subst e; omega
    · have := ih e; omega

theorem Resident.length_lt {cb : RingBuffer} {fs : List Frame} (h : Resident cb fs)
    (hc : cb.capacity ≤ 2 ^ 32) {f : Frame} (hf : f ∈ fs) : f.header.length + 32 ≤ 2 ^ 32 := by
  obtain ⟨_, _, hu, _, _⟩ := h
  have := footprint_le_footprints hf
  have e : f.footprint = 16 + f.header.length + padTo16 f.header.length := rfl
  have hp : (f.header.length + padTo16 f.header.length) % 16 = 0 := by unfold padTo16; omega
  omega

/-! ## One eviction and one append on a buffer with resident frames -/

theorem Resident.header_read {cb : RingBuffer} {f : Frame} {fs : List Frame}
    (h : Resident cb (f :: fs)) (hc : cb.capacity ≤ 2 ^ 32) :
    (Header.ofBytes (cb.Read SIZEOF_HEADER).1).length = f.header.length ∧
    (Header.ofBytes (cb.Read SIZEOF_HEADER).1).keyframe = f.header.keyframe := by
  have hl := h.length_lt hc (List.mem_cons_self f fs)
  obtain ⟨_, _, _, _, h1, _, _⟩ := h
  simp only [RingBuffer.Read, h1, Header.ofBytes_bytes_length, Header.ofBytes_bytes_keyframe]
  exact ⟨Nat.mod_eq_of_lt (by omega), trivial⟩

theorem Resident.advance {cb : RingBuffer} {f : Frame} {fs : List Frame}
    (h : Resident cb (f :: fs)) (cb2 : RingBuffer) (hcap : cb2.capacity = cb.capacity)
    (hst : cb2.storage = cb.storage) (hwr : cb2.write = cb.write)
    (hrd : cb2.read = (cb.read + f.footprint) % cb.capacity) : Resident cb2 fs := by
  obtain ⟨hs, hr, hu, hw, h1, h2, h3⟩ := h
  simp only [footprints] at hu hw
  refine ⟨by rw [hst, hcap, hs], ?_, by rw [hcap]; omega, ?_, ?_⟩
  · rw [hrd, hcap]; exact Nat.mod_lt _ (by omega)
  · rw [hwr, hw, hrd, hcap, Nat.mod_add_mod, Nat.add_assoc]
  · rw [hst, hcap, hrd]
    exact (storedAt_congr_pos fs (Nat.mod_mod _ _)).2 h3

theorem evictOne_read {cb : RingBuffer} {f : Frame} {fs : List Frame}
    (h : Resident cb (f :: fs)) (hc : cb.capacity ≤ 2 ^ 32) :
    (evictOne cb).read = (cb.read + f.footprint) % cb.capacity := by
  have hl := h.length_lt hc (List.mem_cons_self f fs)
  have e := (h.header_read hc).1
  simp only [evictOne, RingBuffer.Skip, e, skipWhole_eq _ (show f.header.length + 15 < 2 ^ 32 by
    omega)]
  simp only [RingBuffer.Read, Nat.mod_add_mod, Frame.footprint, Nat.add_assoc]

theorem evictOne_resident {cb : RingBuffer} {f : Frame} {fs : List Frame}
    (h : Resident cb (f :: fs)) (hc : cb.capacity ≤ 2 ^ 32) : Resident (evictOne cb) fs :=
  h.advance (evictOne cb) rfl rfl rfl (evictOne_read h hc)

/-- The three statements that store a frame: `Write(&header)`, `Write(mem)`, `Pad(pad)`. -/
theorem storage_write_frame (cb : RingBuffer) (header : Header) (mem : List Nat) (pad p : Nat)
    (hw : cb.write = p % cb.capacity) :
    (((cb.Write header.bytes).Write mem).Pad pad).storage
      = writeAt cb.storage cb.capacity p (header.bytes ++ mem) := by
  simp only [RingBuffer.Pad, RingBuffer.Write]
  rw [writeAt_append, writeAt_mod, hw, writeAt_mod, ← writeAt_mod _ _ (p % cb.capacity + _),
    Nat.mod_add_mod, writeAt_mod]

theorem write_write_frame (cb : RingBuffer) (header : Header) (mem : List Nat) (pad p : Nat)
    (hw : cb.write = p % cb.capacity) :
    (((cb.Write header.bytes).Write mem).Pad pad).write
      = (p + (16 + mem.length + pad)) % cb.capacity := by
  simp only [RingBuffer.Pad, RingBuffer.Write, Header.length_bytes, hw, Nat.mod_add_mod,
    Nat.add_assoc]

theorem Resident.write_frame {cb : RingBuffer} {fs : List Frame} (h : Resident cb fs)
    (header : Header) (mem : List Nat) (pad : Nat) (hl : header.length = mem.length)
    (hp : pad = padTo16 mem.length)
    (hlt : footprints fs + (16 + mem.length + pad) < cb.capacity) :
    Resident (((cb.Write header.bytes).Write mem).Pad pad)
      (fs ++ [{ header := header, payload := mem }]) := by
  obtain ⟨hs, hr, hu, hw, h1⟩ := h
  have hst := storage_write_frame cb header mem pad _ hw
  have hwr := write_write_frame cb header mem pad _ hw
  have hlen : (header.bytes ++ mem).length = 16 + mem.length := by
    rw [List.length_append, Header.length_bytes]
  have hrb : readBytes (writeAt cb.storage cb.capacity (cb.read + footprints fs)
      (header.bytes ++ mem)) cb.capacity (cb.read + footprints fs) (16 + mem.length)
      = header.bytes ++ mem := by
    rw [← hlen]
    exact readBytes_writeAt_same _ _ _ _ hs (by omega)
  rw [readBytes_add] at hrb
  have hsplit := List.append_inj hrb (by rw [length_readBytes, Header.length_bytes])
  have hfp : footprints (fs ++ [{ header := header, payload := mem }])
      = footprints fs + (16 + mem.length + pad) := by
    rw [footprints_append]
    simp only [footprints, Frame.footprint, SIZEOF_HEADER, hl, hp, Nat.add_zero]
  have hc : (((cb.Write header.bytes).Write mem).Pad pad).capacity = cb.capacity := by
    simp only [RingBuffer.Pad, RingBuffer.Write]
  have hrd : (((cb.Write header.bytes).Write mem).Pad pad).read = cb.read := by
    simp only [RingBuffer.Pad, RingBuffer.Write]
  refine ⟨?_, ?_, ?_, ?_, ?_⟩
  · rw [hst, length_writeAt, hc]; exact hs
  · rw [hc, hrd]; exact hr
  · rw [hfp, hc]; exact hlt
  · rw [hfp, hwr, hc, hrd, Nat.add_assoc]
  · rw [hst, hc, hrd, storedAt_append]
    refine ⟨?_, ?_, ?_, trivial⟩
    · have := storedAt_writeAt (r := cb.read) (u := footprints fs) (header.bytes ++ mem)
        (by omega) fs 0 (by omega) h1
      exact this
    · exact hsplit.1
    · simp only [hl, SIZEOF_HEADER]; exact hsplit.2

theorem Resident.write_frame_full {cb : RingBuffer} {fs : List Frame} (h : Resident cb fs)
    (header : Header) (mem : List Nat) (pad : Nat)
    (hfull : footprints fs + (16 + mem.length + pad) = cb.capacity) :
    Resident (((cb.Write header.bytes).Write mem).Pad pad) [] := by
  obtain ⟨hs, hr, hu, hw, h1⟩ := h
  have hst := storage_write_frame cb header mem pad _ hw
  have hwr := write_write_frame cb header mem pad _ hw
  have hc : (((cb.Write header.bytes).Write mem).Pad pad).capacity = cb.capacity := by
    simp only [RingBuffer.Pad, RingBuffer.Write]
  have hrd : (((cb.Write header.bytes).Write mem).Pad pad).read = cb.read := by
    simp only [RingBuffer.Pad, RingBuffer.Write]
  refine ⟨?_, ?_, ?_, ?_, trivial⟩
  · rw [hst, length_writeAt, hc]; exact hs
  · rw [hc, hrd]; exact hr
  · rw [hc]; simp only [footprints]; omega
  · rw [hwr, hc, hrd, Nat.add_assoc, hfull]
    simp only [footprints, Nat.add_zero, Nat.add_mod_right]

/-! ## The eviction loop -/

theorem evictLoop_mono {need : Nat} {fuel : Nat} {cb : RingBuffer} {r : RingBuffer × LoopExit}
    (h : evictLoop need fuel cb = some r) {fuel2 : Nat} (hle : fuel ≤ fuel2) :
    evictLoop need fuel2 cb = some r := by
  induction fuel generalizing cb fuel2 with
  | zero => simp [evictLoop] at h
  | succ n ih =>
    obtain ⟨m, rfl⟩ : ∃ m, fuel2 = m + 1 := ⟨fuel2 - 1, by omega⟩
    simp only [evictLoop] at h ⊢
    split
    · rename_i h1
      rw [if_pos h1] at h
      split
      · rename_i h2
        rw [if_pos h2] at h
        exact h
      · rename_i h2
        rw [if_neg h2] at h
        exact ih h (by omega)
    · rename_i h1
      rw [if_neg h1] at h
      exact h

theorem evictLoop_frame {need : Nat} {fuel : Nat} {cb cb2 : RingBuffer} {exit : LoopExit}
    (h : evictLoop need fuel cb = some (cb2, exit)) :
    cb2.capacity = cb.capacity ∧ cb2.storage = cb.storage ∧ cb2.write = cb.write := by
  induction fuel generalizing cb with
  | zero => simp [evictLoop] at h
  | succ n ih =>
    simp only [evictLoop] at h
    split at h
    · split at h
      · cases h; exact ⟨rfl, rfl, rfl⟩
      · have := ih h
        exact this
    · cases h; exact ⟨rfl, rfl, rfl⟩

theorem evictLoop_spec (need : Nat) (fs : List Frame) :
    ∀ (cb : RingBuffer) (fuel : Nat), Resident cb fs → cb.capacity ≤ 2 ^ 32 →
      fs.length < fuel →
      ∃ k cb2 exit, evictLoop need fuel cb = some (cb2, exit) ∧ k ≤ fs.length ∧
        Resident cb2 (fs.drop k) ∧ cb2.capacity = cb.capacity ∧ cb2.storage = cb.storage ∧
        cb2.write = cb.write ∧
        cb2.read = (cb.read + footprints (fs.take k)) % cb.capacity ∧
        (∀ j, j < k → cb.capacity - footprints (fs.drop j) < need) ∧
        (exit = LoopExit.enoughSpace → need ≤ cb.capacity - footprints (fs.drop k)) ∧
        (exit = LoopExit.threw → k = fs.length ∧ cb.capacity < need) := by
  induction fs with
  | nil =>
    intro cb fuel h hc hf
    obtain ⟨n, rfl⟩ : ∃ n, fuel = n + 1 := ⟨fuel - 1, by omega⟩
    have hav := h.available
    have hem := h.empty_iff.2 rfl
    have hr : cb.read = (cb.read + 0) % cb.capacity := by
      rw [Nat.add_zero, Nat.mod_eq_of_lt h.2.1]
    simp only [footprints, Nat.sub_zero] at hav
    by_cases hn : need > cb.Available
    · refine ⟨0, cb, LoopExit.threw, ?_, Nat.le_refl _, h, rfl, rfl, rfl, hr, ?_, ?_, ?_⟩
      · simp only [evictLoop, if_pos hn, hem, if_true]
      · intro j hj; omega
      · intro e; cases e
      · intro _; exact ⟨rfl, by omega⟩
    · refine ⟨0, cb, LoopExit.enoughSpace, ?_, Nat.le_refl _, h, rfl, rfl, rfl, hr, ?_, ?_, ?_⟩
      · simp only [evictLoop, if_neg hn]
      · intro j hj; omega
      · intro _; simp only [List.drop, footprints]; omega
      · intro e; cases e
  | cons f fs ih =>
    intro cb fuel h hc hf
    obtain ⟨n, rfl⟩ : ∃ n, fuel = n + 1 := ⟨fuel - 1, by omega⟩
    have hav := h.available
    have hr : cb.read = (cb.read + 0) % cb.capacity := by
      rw [Nat.add_zero, Nat.mod_eq_of_lt h.2.1]
    by_cases hn : need > cb.Available
    · have hem : cb.Empty = false := by
        cases he : cb.Empty
        · rfl
        · exact absurd (h.empty_iff.1 he) (by simp)
      have h2 := evictOne_resident h hc
      have hrd := evictOne_read h hc
      obtain ⟨k, cb2, exit, e, hk, hres, hcap, hst, hwr, hread, hmin, hen, hth⟩ :=
        ih (evictOne cb) n h2 hc (by simpa using hf)
      refine ⟨k + 1, cb2, exit, ?_, by simpa using hk, hres, hcap, hst, hwr, ?_, ?_, hen, ?_⟩
      · simp only [evictLoop, if_pos hn, hem]
        exact e
      · rw [hread, hrd]
        show ((cb.read + f.footprint) % cb.capacity + _) % cb.capacity = _
        rw [Nat.mod_add_mod, Nat.add_assoc]
        rfl
      · intro j hj
        cases j with
        | zero => simp only [List.drop]; omega
        | succ j => exact hmin j (by omega)
      · intro e2
        obtain ⟨a, b⟩ := hth e2
        exact ⟨by simp [a], b⟩
    · refine ⟨0, cb, LoopExit.enoughSpace, ?_, Nat.zero_le _, h, rfl, rfl, rfl, hr, ?_, ?_, ?_⟩
      · simp only [evictLoop, if_neg hn]
      · intro j hj; omega
      · intro _; simp only [List.drop]; omega
      · intro e; cases e

/-! ## outputBuffer on a buffer with resident frames -/

theorem need_eq (size : Nat) (h : size < 2 ^ 63) :
    (size + padOfSize size + SIZEOF_HEADER) % 2 ^ 64 = footprintOfSize size := by
  rw [padOfSize_eq]
  unfold footprintOfSize SIZEOF_HEADER padTo16
  omega

theorem outputBuffer_mono {fuel : Nat} {self : State} {mem : List Nat} {timestamp_us : Int}
    {flags : Nat} {out : Outcome} (h : outputBuffer fuel self mem timestamp_us flags = some out)
    {fuel2 : Nat} (hle : fuel ≤ fuel2) :
    outputBuffer fuel2 self mem timestamp_us flags = some out := by
  simp only [outputBuffer] at h ⊢
  generalize (mem.length + padOfSize mem.length + SIZEOF_HEADER) % 18446744073709551616
    = need at h ⊢
  cases e : evictLoop need fuel self.cb_ with
  | none => rw [e] at h; exact absurd h (by simp)
  | some r =>
    rw [evictLoop_mono e hle]
    rw [e] at h
    exact h

theorem outputBuffer_spec {self : State} {fs : List Frame} (h : Resident self.cb_ fs)
    (hc : self.cb_.capacity ≤ 2 ^ 32) (mem : List Nat) (timestamp_us : Int) (flags : Nat)
    (hm : mem.length < 2 ^ 63) (fuel : Nat) (hf : fs.length < fuel) :
    ∃ k out, outputBuffer fuel self mem timestamp_us flags = some out ∧ k ≤ fs.length ∧
      out.state.fp_ = self.fp_ ∧ out.state.cb_.capacity = self.cb_.capacity ∧
      out.state.cb_.read = (self.cb_.read + footprints (fs.take k)) % self.cb_.capacity ∧
      (∀ j, j < k → self.cb_.capacity - footprints (fs.drop j) < footprintOfSize mem.length) ∧
      (self.cb_.capacity < footprintOfSize mem.length →
        out.error = some "circular buffer too small" ∧ k = fs.length ∧
        out.state.cb_.storage = self.cb_.storage ∧ out.state.cb_.write = self.cb_.write ∧
        Resident out.state.cb_ []) ∧
      (footprintOfSize mem.length ≤ self.cb_.capacity →
        out.error = none ∧
        footprintOfSize mem.length ≤ self.cb_.capacity - footprints (fs.drop k) ∧
        (footprints (fs.drop k) + footprintOfSize mem.length < self.cb_.capacity →
          Resident out.state.cb_ (fs.drop k ++ [newFrame mem timestamp_us flags])) ∧
        (footprints (fs.drop k) + footprintOfSize mem.length = self.cb_.capacity →
          Resident out.state.cb_ [])) := by
  obtain ⟨k, cb2, exit, e, hk, hres, hcap, hst, hwr, hread, hmin, hen, hth⟩ :=
    evictLoop_spec (footprintOfSize mem.length) fs self.cb_ fuel h hc hf
  have hfp : footprintOfSize mem.length = 16 + mem.length + padTo16 mem.length := rfl
  cases exit with
  | threw =>
    obtain ⟨hk2, hlt⟩ := hth rfl
    refine ⟨k, { state := { self with cb_ := cb2 }, error := some "circular buffer too small" },
      ?_, hk, rfl, hcap, hread, hmin, ?_, ?_⟩
    · simp only [outputBuffer, need_eq _ hm, e]
    · intro _
      refine ⟨rfl, hk2, hst, hwr, ?_⟩
      rw [hk2, List.drop_length] at hres
      exact hres
    · intro hle; omega
  | enoughSpace =>
    have hfit := hen rfl
    refine ⟨k, { state := { self with cb_ := ((cb2.Write (newFrame mem timestamp_us
      flags).header.bytes).Write mem).Pad (padOfSize mem.length) }, error := none },
      ?_, hk, rfl, ?_, ?_, hmin, ?_, ?_⟩
    · simp only [outputBuffer, need_eq _ hm, e, newFrame]
    · simp only [RingBuffer.Pad, RingBuffer.Write, hcap]
    · simp only [RingBuffer.Pad, RingBuffer.Write, hread]
    · intro hlt
      have := Nat.sub_le self.cb_.capacity (footprints (List.drop k fs))
      omega
    · intro hle
      have hlen : mem.length % 2 ^ 32 = mem.length := Nat.mod_eq_of_lt (by omega)
      refine ⟨rfl, hfit, ?_, ?_⟩
      · intro hlt
        have := hres.write_frame (newFrame mem timestamp_us flags).header mem
          (padOfSize mem.length) (by simp only [newFrame, hlen]) (padOfSize_eq _)
          (by rw [padOfSize_eq, hcap]; omega)
        exact this
      · intro heq
        exact hres.write_frame_full (newFrame mem timestamp_us flags).header mem
          (padOfSize mem.length) (by rw [padOfSize_eq, hcap]; omega)

theorem outputBuffer_frame {fuel : Nat} {self : State} {mem : List Nat} {timestamp_us : Int}
    {flags : Nat} {out : Outcome} (h : outputBuffer fuel self mem timestamp_us flags = some out) :
    out.state.cb_.capacity = self.cb_.capacity ∧ out.state.fp_ = self.fp_ := by
  simp only [outputBuffer] at h
  split at h
  · exact absurd h (by simp)
  · rename_i cb he
    have := evictLoop_frame he
    cases h
    exact ⟨this.1, rfl⟩
  · rename_i cb he
    have := evictLoop_frame he
    cases h
    simp only [RingBuffer.Pad, RingBuffer.Write]
    exact ⟨this.1, trivial⟩

theorem Reachable.capacity_eq {capacity : Nat} {calls : List Call} {self : State}
    (h : Reachable capacity calls self) : self.cb_.capacity = capacity ∧ self.fp_ = [] := by
  induction h with
  | create => exact ⟨rfl, rfl⟩
  | @call calls self fuel c out _ _ e ih =>
    have := outputBuffer_frame e
    exact ⟨this.1.trans ih.1, this.2.trans ih.2⟩

theorem Reachable.resident {capacity : Nat} {calls : List Call} {self : State}
    (h : Reachable capacity calls self) (h0 : 0 < capacity) (hc : capacity ≤ 2 ^ 32) :
    ∃ k, Resident self.cb_ ((calls.map Call.frame).drop k) := by
  induction h with
  | create => exact ⟨0, Resident.create h0⟩
  | @call calls self fuel c out hr hm e ih =>
    obtain ⟨n, hres⟩ := ih
    have hcap := hr.capacity_eq.1
    generalize hfs : List.drop n (List.map Call.frame calls) = fs at hres
    obtain ⟨k, out2, e2, _, _, hcap2, _, _, hthrow, hok⟩ :=
      outputBuffer_spec hres (by omega) c.mem c.timestamp_us c.flags hm
        (max fuel (fs.length + 1)) (by omega)
    have e3 := outputBuffer_mono e (Nat.le_max_left fuel (fs.length + 1))
    rw [e2] at e3
    cases e3
    have hnil : ∀ l : List Frame, List.drop l.length l = [] := fun l => List.drop_length l
    by_cases hlt : self.cb_.capacity < footprintOfSize c.mem.length
    · refine ⟨(List.map Call.frame (calls ++ [c])).length, ?_⟩
      rw [hnil]
      exact (hthrow hlt).2.2.2.2
    · obtain ⟨_, hfit, h1, h2⟩ := hok (by omega)
      by_cases hfull : footprints (List.drop k fs) + footprintOfSize c.mem.length
          = self.cb_.capacity
      · refine ⟨(List.map Call.frame (calls ++ [c])).length, ?_⟩
        rw [hnil]
        exact h2 hfull
      · have := hres.2.2.1
        have hd := footprints_drop_le fs k
        have h3 := h1 (by omega)
        by_cases hn : n + k ≤ calls.length
        · refine ⟨n + k, ?_⟩
          rw [List.map_append, List.drop_append_of_le_length (by simpa using hn),
            ← List.drop_drop, hfs]
          exact h3
        · refine ⟨calls.length, ?_⟩
          have hd0 : List.drop k fs = [] := by
            rw [← hfs, List.drop_drop]
            exact List.drop_eq_nil_of_le (by simp; omega)
          rw [hd0] at h3
          rw [List.map_append, List.drop_append_of_le_length (by simp),
            List.drop_eq_nil_of_le (by simp)]
          exact h3

/-! ## The flush loop -/

theorem lengths_le_footprints (fs : List Frame) : lengths fs ≤ footprints fs := by
  induction fs with
  | nil => exact Nat.le_refl _
  | cons f fs ih => simp only [lengths, footprints, Frame.footprint]; omega

theorem length_payloads {storage : List Nat} {capacity : Nat} (fs : List Frame) (pos : Nat)
    (h : storedAt storage capacity pos fs) : (payloads fs).length = lengths fs := by
  induction fs generalizing pos with
  | nil => rfl
  | cons f fs ih =>
    simp only [payloads, lengths, List.length_append, payload_length_of_storedAt h, ih _ h.2.2]

theorem fromFirstKeyframe_sublist (fs : List Frame) :
    ∃ k, k ≤ fs.length ∧ fromFirstKeyframe fs = fs.drop k := by
  induction fs with
  | nil => exact ⟨0, Nat.le_refl _, rfl⟩
  | cons f fs ih =>
    by_cases hk : f.header.keyframe = true
    · exact ⟨0, Nat.zero_le _, by simp [fromFirstKeyframe, hk]⟩
    · obtain ⟨k, hk1, hk2⟩ := ih
      exact ⟨k + 1, by simpa using hk1, by simp [fromFirstKeyframe, hk, hk2]⟩

theorem length_flushed_le (seen : Bool) (fs : List Frame) :
    (flushed seen fs).length ≤ fs.length ∧ footprints (flushed seen fs) ≤ footprints fs := by
  cases seen
  · obtain ⟨k, _, hk⟩ := fromFirstKeyframe_sublist fs
    simp only [flushed, hk, Bool.false_eq_true, if_false]
    exact ⟨by simp, footprints_drop_le fs k⟩
  · simp [flushed]

theorem Resident.payload_read {cb : RingBuffer} {f : Frame} {fs : List Frame}
    (h : Resident cb (f :: fs)) :
    ((cb.Read SIZEOF_HEADER).2.Read f.header.length).1 = f.payload := by
  obtain ⟨_, _, _, _, _, h2, _⟩ := h
  simp only [RingBuffer.Read, readBytes_mod, h2]

theorem Resident.after_payload {cb : RingBuffer} {f : Frame} {fs : List Frame}
    (h : Resident cb (f :: fs)) :
    Resident (((cb.Read SIZEOF_HEADER).2.Read f.header.length).2.Skip (skipPad f.header.length))
      fs := by
  refine Resident.advance h (((cb.Read SIZEOF_HEADER).2.Read f.header.length).2.Skip
    (skipPad f.header.length)) rfl rfl rfl ?_
  simp only [RingBuffer.Skip, RingBuffer.Read, skipPad_eq, Nat.mod_add_mod, Frame.footprint,
    Nat.add_assoc]

theorem flushLoop_spec (fs : List Frame) :
    ∀ (cb : RingBuffer) (fuel : Nat) (fp : List Nat) (total frames : Nat) (seen : Bool),
      Resident cb fs → cb.capacity ≤ 2 ^ 32 → fs.length < fuel →
      total + lengths (flushed seen fs) < 2 ^ 32 →
      frames + (flushed seen fs).length < 2 ^ 32 →
      flushLoop fuel cb fp total frames seen
        = some { state := { cb_ := cb.drained, fp_ := fp ++ payloads (flushed seen fs) }
                 total := total + lengths (flushed seen fs)
                 frames := frames + (flushed seen fs).length } := by
  induction fs with
  | nil =>
    intro cb fuel fp total frames seen h hc hf _ _
    obtain ⟨n, rfl⟩ : ∃ n, fuel = n + 1 := ⟨fuel - 1, by omega⟩
    have hem := h.empty_iff.2 rfl
    have hrw : cb.read = cb.write := by simpa [RingBuffer.Empty] using hem
    have hd : cb.drained = cb := by
      cases cb
      simp only [RingBuffer.drained] at hrw ⊢
      simp only [hrw]
    have hfl : flushed seen [] = [] := by cases seen <;> rfl
    simp only [flushLoop, hem, hfl, payloads, lengths, List.length_nil, Nat.add_zero,
      List.append_nil, hd, Bool.not_true, Bool.false_eq_true, if_false]
  | cons f fs ih =>
    intro cb fuel fp total frames seen h hc hf ht hn
    obtain ⟨n, rfl⟩ : ∃ n, fuel = n + 1 := ⟨fuel - 1, by omega⟩
    have hem : cb.Empty = false := by
      cases he : cb.Empty
      · rfl
      · exact absurd (h.empty_iff.1 he) (by simp)
    obtain ⟨hl, hk⟩ := h.header_read hc
    have hlen := h.length_lt hc (List.mem_cons_self f fs)
    simp only [flushLoop, hem, hl, hk, Bool.not_false, if_true]
    by_cases hs : (seen || f.header.keyframe) = true
    · have hfl : flushed seen (f :: fs) = f :: fs := by
        cases seen
        · simp only [Bool.false_or] at hs
          simp [flushed, fromFirstKeyframe, hs]
        · rfl
      rw [hfl] at ht hn
      simp only [lengths, List.length_cons] at ht hn
      have h2 := h.after_payload
      have hd : (((cb.Read SIZEOF_HEADER).2.Read f.header.length).2.Skip
          (skipPad f.header.length)).drained = cb.drained := rfl
      rw [if_pos hs, hs, h.payload_read, Nat.mod_eq_of_lt (by omega : total + f.header.length
        < 2 ^ 32), Nat.mod_eq_of_lt (by omega : frames + 1 < 2 ^ 32),
        ih _ n _ _ _ true h2 hc (by simpa using hf) (by simpa [flushed] using by omega)
          (by simpa [flushed] using by omega), hd, hfl]
      simp only [flushed, if_true, payloads, lengths, List.length_cons, List.append_assoc,
        Nat.add_assoc, Nat.add_comm 1]
    · have hs2 : seen = false ∧ f.header.keyframe = false := by
        cases seen <;> cases hkf : f.header.keyframe <;> simp_all
      obtain ⟨hs3, hkf⟩ := hs2
      subst hs3
      have hfl : flushed false (f :: fs) = flushed false fs := by
        simp [flushed, fromFirstKeyframe, hkf]
      rw [hfl] at ht hn
      have h2 := evictOne_resident h hc
      have hd : (evictOne cb).drained = cb.drained := rfl
      have he : (cb.Read SIZEOF_HEADER).2.Skip (skipWhole f.header.length) = evictOne cb := by
        simp only [evictOne, hl]
      rw [if_neg hs, he, hkf, Bool.or_false, ih _ n _ _ _ false h2 hc (by simpa using hf) ht hn,
        hd, hfl]

/-! ## Runs of calls -/

theorem appendAll_reachable {capacity : Nat} {fuel : Nat} (cs : List Call) :
    ∀ {calls : List Call} {self st : State}, Reachable capacity calls self →
      (∀ c, c ∈ cs → c.mem.length < 2 ^ 63) → appendAll fuel self cs = some st →
      Reachable capacity (calls ++ cs) st := by
  induction cs with
  | nil =>
    intro calls self st hr _ e
    simp only [appendAll, Option.some.injEq] at e
    subst e
    simpa using hr
  | cons c cs ih =>
    intro calls self st hr hm e
    simp only [appendAll] at e
    cases ho : outputBuffer fuel self c.mem c.timestamp_us c.flags with
    | none => rw [ho] at e; exact absurd e (by simp)
    | some out =>
      rw [ho] at e
      by_cases he : out.error = none
      · dsimp only at e
        rw [if_pos he] at e
        have h1 := Reachable.call hr (hm c (List.mem_cons_self c cs)) ho
        have h2 := ih h1 (fun d hd => hm d (List.mem_cons_of_mem c hd)) e
        simpa using h2
      · dsimp only at e
        rw [if_neg he] at e
        exact absurd e (by simp)

/-! ## The destructor on a buffer with resident frames -/

theorem length_lt_of_resident {cb : RingBuffer} {fs : List Frame} (h : Resident cb fs) :
    fs.length ≤ cb.capacity / 16 := by
  have h1 := length_le_footprints fs
  have h2 := h.2.2.1
  omega

theorem destructor_spec {capacity : Nat} {calls : List Call} {self : State} {fs : List Frame}
    (hc : capacity ≤ 2 ^ 32) (hr : Reachable capacity calls self) (hres : Resident self.cb_ fs)
    (fuel : Nat) (hf : fs.length < fuel) :
    destructor fuel self
      = some { state := { cb_ := self.cb_.drained, fp_ := payloads (fromFirstKeyframe fs) }
               total := lengths (fromFirstKeyframe fs)
               frames := (fromFirstKeyframe fs).length } := by
  obtain ⟨hcap, hfp⟩ := hr.capacity_eq
  have h1 := length_flushed_le false fs
  have h2 := lengths_le_footprints (flushed false fs)
  have h3 := length_le_footprints fs
  have h4 := hres.2.2.1
  have := flushLoop_spec fs self.cb_ fuel self.fp_ 0 0 false hres (by omega) hf (by omega)
    (by omega)
  rw [hfp] at this
  simp only [destructor, hfp, this, flushed, Bool.false_eq_true, if_false, List.nil_append,
    Nat.zero_add]

theorem fromFirstKeyframe_of_head {fs : List Frame}
    (h : fs.map (fun f => f.header.keyframe) = [true, false, false, true, false]) :
    fromFirstKeyframe fs = fs := by
  cases fs with
  | nil => simp at h
  | cons f fs =>
    simp only [List.map_cons, List.cons.injEq] at h
    simp [fromFirstKeyframe, h.1]

theorem fromFirstKeyframe_eq_nil {fs : List Frame} (h : ∀ f, f ∈ fs → f.header.keyframe = false) :
    fromFirstKeyframe fs = [] := by
  induction fs with
  | nil => rfl
  | cons f fs ih =>
    simp only [fromFirstKeyframe, h f (List.mem_cons_self f fs), Bool.false_eq_true, if_false]
    exact ih (fun g hg => h g (List.mem_cons_of_mem f hg))

/-! ## The example run -/

set_option maxRecDepth 100000 in
theorem exampleState_eq : appendAll 1 (State.create 176) exampleCalls = some exampleState := by
  decide!

theorem exampleState_reachable : Reachable 176 exampleCalls exampleState := by
  have h : Reachable 176 ([] ++ exampleCalls) exampleState :=
    appendAll_reachable exampleCalls Reachable.create (by decide) exampleState_eq
  simpa using h

set_option maxRecDepth 100000 in
theorem exampleState_resident : Resident exampleState.cb_ (exampleCalls.map Call.frame) := by
  decide!

/-! ## Alignment of the write cursor -/

theorem outputBuffer_write {fuel : Nat} {self : State} {mem : List Nat} {timestamp_us : Int}
    {flags : Nat} {out : Outcome} (h : outputBuffer fuel self mem timestamp_us flags = some out) :
    out.state.cb_.storage.length = self.cb_.storage.length ∧
    (out.error = some "circular buffer too small" ∨ out.error = none) ∧
    (out.error ≠ none →
      out.state.cb_.write = self.cb_.write ∧ out.state.cb_.storage = self.cb_.storage) ∧
    (out.error = none → out.state.cb_.write
      = (self.cb_.write + (16 + mem.length + padTo16 mem.length)) % self.cb_.capacity) := by
  simp only [outputBuffer] at h
  split at h
  · exact absurd h (by simp)
  · rename_i cb he
    have := evictLoop_frame he
    cases h
    exact ⟨by rw [this.2.1], Or.inl rfl, fun _ => ⟨this.2.2, this.2.1⟩, fun e => by cases e⟩
  · rename_i cb he
    have := evictLoop_frame he
    cases h
    refine ⟨?_, Or.inr rfl, fun e => absurd rfl e, fun _ => ?_⟩
    · simp only [RingBuffer.Pad, RingBuffer.Write, length_writeAt, this.2.1]
    · simp only [RingBuffer.Pad, RingBuffer.Write, Header.length_bytes, padOfSize_eq,
        Nat.mod_add_mod, this.1, this.2.2, Nat.add_assoc]

theorem aligned_step {capacity w n : Nat} (h16 : 16 ∣ capacity) (hw : 16 ∣ w) (hn : 16 ∣ n) :
    16 ∣ (w + n) % capacity :=
  (Nat.dvd_mod_iff h16).2 (Nat.dvd_add hw hn)

theorem footprint_aligned (size : Nat) : 16 ∣ 16 + size + padTo16 size := by
  unfold padTo16; omega

theorem Reachable.write_aligned {capacity : Nat} {calls : List Call} {self : State}
    (h : Reachable capacity calls self) (h16 : 16 ∣ capacity) : 16 ∣ self.cb_.write := by
  induction h with
  | create => exact Nat.dvd_zero 16
  | @call calls self fuel c out hr _ e ih =>
    obtain ⟨_, hcases, herr, hok⟩ := outputBuffer_write e
    rcases hcases with he | he
    · rw [(herr (by simp [he])).1]; exact ih
    · rw [hok he, hr.capacity_eq.1]
      exact aligned_step h16 ih (footprint_aligned _)

/-! ## The header read back from its bytes -/

theorem Header.ofBytes_bytes (h : Header) (hl : h.length < 2 ^ 32) (lo : -2 ^ 63 ≤ h.timestamp)
    (hi : h.timestamp < 2 ^ 63) : Header.ofBytes h.bytes = h := by
  have a := Header.ofBytes_bytes_length h
  have b := Header.ofBytes_bytes_keyframe h
  have c := Header.ofBytes_bytes_timestamp h lo hi
  rw [Nat.mod_eq_of_lt hl] at a
  cases h
  cases e : Header.ofBytes _
  simp_all

/-! ## The iterations of the eviction loop -/

theorem evictLoop_iterate {need : Nat} {fuel : Nat} {cb cb2 : RingBuffer} {exit : LoopExit}
    (h : evictLoop need fuel cb = some (cb2, exit)) :
    ∃ k, cb2 = evictOne^[k] cb ∧
      (∀ j, j < k → (evictOne^[j] cb).Available < need ∧ (evictOne^[j] cb).Empty = false) ∧
      (exit = LoopExit.enoughSpace → need ≤ cb2.Available) ∧
      (exit = LoopExit.threw → cb2.Available < need ∧ cb2.Empty = true) := by
  induction fuel generalizing cb with
  | zero => simp [evictLoop] at h
  | succ n ih =>
    simp only [evictLoop] at h
    by_cases h1 : need > cb.Available
    · rw [if_pos h1] at h
      by_cases h2 : cb.Empty = true
      · rw [if_pos h2] at h
        cases h
        exact ⟨0, rfl, fun j hj => absurd hj (by omega), fun e => (by cases e),
          fun _ => ⟨h1, h2⟩⟩
      · rw [if_neg h2] at h
        obtain ⟨k, hk, hj, he, ht⟩ := ih h
        refine ⟨k + 1, by rw [hk]; rfl, ?_, he, ht⟩
        intro j hlt
        cases j with
        | zero => exact ⟨h1, by simpa using h2⟩
        | succ j => exact hj j (by omega)
    · rw [if_neg h1] at h
      cases h
      exact ⟨0, rfl, fun j hj => absurd hj (by omega), fun _ => (by omega),
        fun e => (by cases e)⟩

theorem iterate_evictOne_resident {cb : RingBuffer} {fs : List Frame} (h : Resident cb fs)
    (hc : cb.capacity ≤ 2 ^ 32) (k : Nat)
    (hne : ∀ j, j < k → (evictOne^[j] cb).Empty = false) :
    ∀ j, j ≤ k → j ≤ fs.length ∧ (evictOne^[j] cb).capacity = cb.capacity ∧
      Resident (evictOne^[j] cb) (fs.drop j) ∧
      (evictOne^[j] cb).read = (cb.read + footprints (fs.take j)) % cb.capacity := by
  intro j
  induction j with
  | zero =>
    intro _
    refine ⟨Nat.zero_le _, rfl, h, ?_⟩
    simp only [Function.iterate_zero, id_eq, List.take_zero, footprints, Nat.add_zero]
    exact (Nat.mod_eq_of_lt h.2.1).symm
  | succ j ih =>
    intro hj
    obtain ⟨hlen, hcap, hres, hread⟩ := ih (by omega)
    have hem := hne j (by omega)
    cases hd : fs.drop j with
    | nil =>
      rw [hd] at hres
      rw [hres.empty_iff.2 rfl] at hem
      exact absurd hem (by simp)
    | cons f rest =>
      rw [hd] at hres
      have hjl : j < fs.length := by
        by_contra hcon
        rw [List.drop_eq_nil_of_le (by omega)] at hd
        exact absurd hd (by simp)
      have hdc := List.drop_eq_getElem_cons hjl
      rw [hd] at hdc
      obtain ⟨hf, hrest⟩ := List.cons.inj hdc
      have hget : fs[j]? = some f := by
        rw [List.getElem?_eq_getElem hjl, hf]
      have hrest := hrest.symm
      have htake : footprints (fs.take (j + 1)) = footprints (fs.take j) + f.footprint := by
        rw [List.take_succ, hget, footprints_append]
        simp [footprints]
      refine ⟨hjl, ?_, ?_, ?_⟩
      · rw [Function.iterate_succ_apply']; exact hcap
      · rw [Function.iterate_succ_apply', hrest]
        exact evictOne_resident hres (by omega)
      · rw [Function.iterate_succ_apply', evictOne_read hres (by omega), hread, hcap,
          Nat.mod_add_mod, htake, Nat.add_assoc]

/-! ## The resident frames are determined by the buffer -/

theorem storedAt_unique {storage : List Nat} {capacity : Nat} (fs : List Frame) :
    ∀ (gs : List Frame) (pos : Nat), storedAt storage capacity pos fs →
      storedAt storage capacity pos gs → footprints fs = footprints gs →
      (∀ f, f ∈ fs → f.header.length < 2 ^ 32) → (∀ g, g ∈ gs → g.header.length < 2 ^ 32) →
      fs.map (fun f => (f.header.bytes, f.payload))
        = gs.map (fun g => (g.header.bytes, g.payload)) := by
  induction fs with
  | nil =>
    intro gs pos _ _ hfp _ _
    rw [@footprints_eq_zero gs (by simpa [footprints] using hfp.symm)]
  | cons f fs ih =>
    intro gs pos hf hg hfp hlf hlg
    cases gs with
    | nil =>
      have := f.footprint_pos
      simp only [footprints] at hfp
      omega
    | cons g gs =>
      obtain ⟨hf1, hf2, hf3⟩ := hf
      obtain ⟨hg1, hg2, hg3⟩ := hg
      have hb : f.header.bytes = g.header.bytes := hf1.symm.trans hg1
      have hl : f.header.length = g.header.length := by
        have h1 := Header.ofBytes_bytes_length f.header
        have h2 := Header.ofBytes_bytes_length g.header
        rw [hb, h2] at h1
        have := hlf f (List.mem_cons_self f fs)
        have := hlg g (List.mem_cons_self g gs)
        omega
      have hfoot : f.footprint = g.footprint := by simp only [Frame.footprint, hl]
      have hp : f.payload = g.payload := by rw [← hf2, ← hg2, hl]
      simp only [footprints] at hfp
      rw [hfoot] at hf3
      have := ih gs _ hf3 hg3 (by omega)
        (fun x hx => hlf x (List.mem_cons_of_mem f hx))
        (fun x hx => hlg x (List.mem_cons_of_mem g hx))
      simp only [List.map_cons, hb, hp, this]

theorem Resident.unique {cb : RingBuffer} {fs gs : List Frame} (hf : Resident cb fs)
    (hg : Resident cb gs) (hc : cb.capacity ≤ 2 ^ 32) :
    fs.map (fun f => (f.header.bytes, f.payload))
      = gs.map (fun g => (g.header.bytes, g.payload)) := by
  have h1 := hf.available
  have h2 := hg.available
  have h3 := hf.2.2.1
  have h4 := hg.2.2.1
  exact storedAt_unique fs gs cb.read hf.2.2.2.2 hg.2.2.2.2 (by omega)
    (fun x hx => by have := hf.length_lt hc hx; omega)
    (fun x hx => by have := hg.length_lt hc hx; omega)

/-! ## The capacity of the source -/

theorem CIRCULAR_BUFFER_SIZE_fits :
    0 < CIRCULAR_BUFFER_SIZE ∧ CIRCULAR_BUFFER_SIZE ≤ 2 ^ 32 ∧ 16 ∣ CIRCULAR_BUFFER_SIZE ∧
    State.initial = State.create CIRCULAR_BUFFER_SIZE := by
  refine ⟨by decide, by decide, by decide, rfl⟩

/-! ## More example runs -/

set_option maxRecDepth 100000 in
theorem exampleAppended_eq :
    outputBuffer 12 exampleState (List.replicate 20 7) 6000 0 = some exampleAppended := by
  decide!

set_option maxRecDepth 100000 in
theorem exampleFailed_eq :
    outputBuffer 12 exampleState (List.replicate 200 7) 6000 1 = some exampleFailed := by
  decide!

set_option maxRecDepth 100000 in
theorem plainState_eq : appendAll 1 (State.create 176) plainCalls = some plainState := by
  decide!

theorem plainState_reachable : Reachable 176 plainCalls plainState := by
  have h : Reachable 176 ([] ++ plainCalls) plainState :=
    appendAll_reachable plainCalls Reachable.create (by decide) plainState_eq
  simpa using h

set_option maxRecDepth 100000 in
theorem plainState_resident : Resident plainState.cb_ (plainCalls.map Call.frame) := by
  decide!

/-! ## The claims -/

/-- C1. For every state reachable from the empty buffer by `outputBuffer` calls, with resident
frames `fs`, the destructor writes to the file exactly the payloads, in order, of the resident
frames from the first one with `keyframe = true` through the last one, and nothing else; with
five resident frames flagged `[true, false, false, true, false]` these are the payloads of all
five frames. The capacity is any value up to `2 ^ 32`, the 4 MiB of the source among them. -/
theorem flush_writes_payloads_from_first_keyframe {capacity : Nat} {calls : List Call}
    {self : State} {fs : List Frame} (hc : capacity ≤ 2 ^ 32)
    (hr : Reachable capacity calls self) (hres : Resident self.cb_ fs) (fuel : Nat)
    (hf : fs.length < fuel) :
    ∃ rep, destructor fuel self = some rep ∧
      rep.state.fp_ = payloads (fromFirstKeyframe fs) ∧
      (fs.map (fun f => f.header.keyframe) = [true, false, false, true, false] →
        rep.state.fp_ = payloads fs) := by
  refine ⟨_, destructor_spec hc hr hres fuel hf, rfl, ?_⟩
  intro h
  simp only [fromFirstKeyframe_of_head h]

/-- Witness of C1: the five example frames on a buffer of 176 bytes. -/
theorem flush_writes_payloads_from_first_keyframe_witness :
    176 ≤ 2 ^ 32 ∧ Reachable 176 exampleCalls exampleState ∧
    Resident exampleState.cb_ (exampleCalls.map Call.frame) ∧
    ∃ rep, destructor 6 exampleState = some rep ∧
      rep.state.fp_ = payloads (fromFirstKeyframe (exampleCalls.map Call.frame)) ∧
      ((exampleCalls.map Call.frame).map (fun f => f.header.keyframe)
          = [true, false, false, true, false] →
        rep.state.fp_ = payloads (exampleCalls.map Call.frame)) :=
  ⟨by decide, exampleState_reachable, exampleState_resident,
    flush_writes_payloads_from_first_keyframe (by decide) exampleState_reachable
      exampleState_resident 6 (by decide)⟩

/-- C4. For every reachable state and every frame size, `outputBuffer` terminates (any fuel
above `capacity / 16` is enough for the eviction loop), and it fails with "circular buffer too
small" if and only if the footprint `sizeof(Header) + size + pad` exceeds the capacity; when
the footprint is at most the capacity the call succeeds. The size is that of a block of
memory, below `2 ^ 63`, so that the `size_t` sum of the loop condition does not wrap. -/
theorem outputBuffer_fails_iff_footprint_exceeds_capacity {capacity : Nat} {calls : List Call}
    {self : State} (h0 : 0 < capacity) (hc : capacity ≤ 2 ^ 32)
    (hr : Reachable capacity calls self) (mem : List Nat) (timestamp_us : Int) (flags : Nat)
    (hm : mem.length < 2 ^ 63) (fuel : Nat) (hf : capacity / 16 < fuel) :
    ∃ out, outputBuffer fuel self mem timestamp_us flags = some out ∧
      (out.error = some "circular buffer too small"
        ↔ capacity < SIZEOF_HEADER + mem.length + padOfSize mem.length) ∧
      (SIZEOF_HEADER + mem.length + padOfSize mem.length ≤ capacity → out.error = none) := by
  obtain ⟨n, hres⟩ := hr.resident h0 hc
  have hcap := hr.capacity_eq.1
  have hlen := length_lt_of_resident hres
  rw [hcap] at hlen
  obtain ⟨k, out, e, _, _, _, _, _, hthrow, hok⟩ :=
    outputBuffer_spec hres (by omega) mem timestamp_us flags hm fuel (by omega)
  rw [hcap] at hthrow hok
  rw [padOfSize_eq]
  refine ⟨out, e, ⟨fun he => ?_, fun hlt => (hthrow hlt).1⟩, fun hle => (hok hle).1⟩
  by_contra hcon
  have := (hok (Nat.le_of_not_lt hcon)).1
  rw [this] at he
  exact absurd he (by simp)

/-- Witness of C4: a further frame of 20 bytes offered to the example state. -/
theorem outputBuffer_fails_iff_footprint_exceeds_capacity_witness :
    0 < 176 ∧ 176 ≤ 2 ^ 32 ∧ Reachable 176 exampleCalls exampleState ∧
    (List.replicate 20 7).length < 2 ^ 63 ∧ 176 / 16 < 12 ∧
    ∃ out, outputBuffer 12 exampleState (List.replicate 20 7) 6000 0 = some out ∧
      (out.error = some "circular buffer too small"
        ↔ 176 < SIZEOF_HEADER + (List.replicate 20 7).length
            + padOfSize (List.replicate 20 7).length) ∧
      (SIZEOF_HEADER + (List.replicate 20 7).length + padOfSize (List.replicate 20 7).length
        ≤ 176 → out.error = none) :=
  ⟨by decide, by decide, exampleState_reachable, by decide, by decide,
    outputBuffer_fails_iff_footprint_exceeds_capacity (by decide) (by decide)
      exampleState_reachable (List.replicate 20 7) 6000 0 (by decide) 12 (by decide)⟩

/-- C5. Complete-frames invariant: in every state reachable from the empty buffer by
`outputBuffer` calls, successful or failed, the cyclic region from the read cursor to the write
cursor consists of zero or more complete frames (header, `header.length` payload bytes, pad to
a multiple of 16), the last one ending exactly at the write cursor. -/
theorem region_holds_complete_frames {capacity : Nat} {calls : List Call} {self : State}
    (h0 : 0 < capacity) (hc : capacity ≤ 2 ^ 32) (hr : Reachable capacity calls self) :
    ∃ fs, Resident self.cb_ fs ∧
      (self.cb_.write + self.cb_.capacity - self.cb_.read) % self.cb_.capacity
        = footprints fs ∧
      self.cb_.write = (self.cb_.read + footprints fs) % self.cb_.capacity := by
  obtain ⟨n, hres⟩ := hr.resident h0 hc
  refine ⟨_, hres, ?_, hres.2.2.2.1⟩
  obtain ⟨_, h2, h3, h4, _⟩ := hres
  rw [h4]
  exact cyclic_distance h2 h3

/-- Witness of C5: the example state. -/
theorem region_holds_complete_frames_witness :
    0 < 176 ∧ 176 ≤ 2 ^ 32 ∧ Reachable 176 exampleCalls exampleState ∧
    ∃ fs, Resident exampleState.cb_ fs ∧
      (exampleState.cb_.write + exampleState.cb_.capacity - exampleState.cb_.read)
        % exampleState.cb_.capacity = footprints fs ∧
      exampleState.cb_.write
        = (exampleState.cb_.read + footprints fs) % exampleState.cb_.capacity :=
  ⟨by decide, by decide, exampleState_reachable,
    region_holds_complete_frames (by decide) (by decide) exampleState_reachable⟩

/-- C8. Alignment invariant: with a capacity that is a multiple of 16 and a buffer that starts
empty at offset 0, after every successful `outputBuffer` call the write cursor is a multiple
of 16. -/
theorem write_cursor_aligned_after_append {capacity : Nat} {calls : List Call} {self : State}
    {fuel : Nat} {mem : List Nat} {timestamp_us : Int} {flags : Nat} {out : Outcome}
    (h16 : 16 ∣ capacity) (hr : Reachable capacity calls self)
    (e : outputBuffer fuel self mem timestamp_us flags = some out) (hok : out.error = none) :
    16 ∣ out.state.cb_.write := by
  rw [(outputBuffer_write e).2.2.2 hok, hr.capacity_eq.1]
  exact aligned_step h16 (hr.write_aligned h16) (footprint_aligned _)

/-- C9. Whenever `outputBuffer` fails with the capacity error, no byte of the new frame has
been written: the write cursor and the storage are what they were before the call. -/
theorem failed_append_writes_nothing {fuel : Nat} {self : State} {mem : List Nat}
    {timestamp_us : Int} {flags : Nat} {out : Outcome}
    (e : outputBuffer fuel self mem timestamp_us flags = some out)
    (herr : out.error = some "circular buffer too small") :
    out.state.cb_.write = self.cb_.write ∧ out.state.cb_.storage = self.cb_.storage :=
  (outputBuffer_write e).2.2.1 (by simp [herr])

/-- C10. Flush totals: for every reachable state with resident frames `fs`, the destructor
reports `frames` = the number of resident frames from the first keyframe on and `total` = the
sum of `header.length` over those frames, which is the number of bytes written to the file. -/
theorem flush_totals {capacity : Nat} {calls : List Call} {self : State} {fs : List Frame}
    (hc : capacity ≤ 2 ^ 32) (hr : Reachable capacity calls self)
    (hres : Resident self.cb_ fs) (fuel : Nat) (hf : fs.length < fuel) :
    ∃ rep, destructor fuel self = some rep ∧
      rep.frames = (fromFirstKeyframe fs).length ∧
      rep.total = lengths (fromFirstKeyframe fs) ∧
      rep.total = rep.state.fp_.length := by
  refine ⟨_, destructor_spec hc hr hres fuel hf, rfl, rfl, ?_⟩
  obtain ⟨k, _, hk⟩ := fromFirstKeyframe_sublist fs
  have h1 := hres.2.2.2.2
  rw [← List.take_append_drop k fs, storedAt_append] at h1
  simp only [hk]
  exact (length_payloads _ _ h1.2).symm

/-- Witness of C10: the example state. -/
theorem flush_totals_witness :
    176 ≤ 2 ^ 32 ∧ Reachable 176 exampleCalls exampleState ∧
    Resident exampleState.cb_ (exampleCalls.map Call.frame) ∧
    ∃ rep, destructor 6 exampleState = some rep ∧
      rep.frames = (fromFirstKeyframe (exampleCalls.map Call.frame)).length ∧
      rep.total = lengths (fromFirstKeyframe (exampleCalls.map Call.frame)) ∧
      rep.total = rep.state.fp_.length :=
  ⟨by decide, exampleState_reachable, exampleState_resident,
    flush_totals (by decide) exampleState_reachable exampleState_resident 6 (by decide)⟩

/-- Witness of C8: a further frame of 20 bytes appended to the example state. -/
theorem write_cursor_aligned_after_append_witness :
    16 ∣ 176 ∧ Reachable 176 exampleCalls exampleState ∧
    outputBuffer 12 exampleState (List.replicate 20 7) 6000 0 = some exampleAppended ∧
    exampleAppended.error = none ∧ 16 ∣ exampleAppended.state.cb_.write :=
  ⟨by decide, exampleState_reachable, exampleAppended_eq, by decide!,
    write_cursor_aligned_after_append (by decide) exampleState_reachable exampleAppended_eq
      (by decide!)⟩

/-- Witness of C9: a frame of 200 bytes offered to the example state of 176 bytes. -/
theorem failed_append_writes_nothing_witness :
    outputBuffer 12 exampleState (List.replicate 200 7) 6000 1 = some exampleFailed ∧
    exampleFailed.error = some "circular buffer too small" ∧
    exampleFailed.state.cb_.write = exampleState.cb_.write ∧
    exampleFailed.state.cb_.storage = exampleState.cb_.storage :=
  ⟨exampleFailed_eq, by decide!,
    failed_append_writes_nothing exampleFailed_eq (by decide!)⟩

/-- C7. No-keyframe case: for every reachable state in which no resident frame has
`keyframe = true`, the destructor writes zero bytes, reports `total = 0` and `frames = 0`,
returns normally and leaves the buffer empty; this is the case in particular when no call ever
had the keyframe bit set. -/
theorem flush_without_keyframe_writes_nothing {capacity : Nat} {calls : List Call}
    {self : State} (h0 : 0 < capacity) (hc : capacity ≤ 2 ^ 32)
    (hr : Reachable capacity calls self) :
    (∀ fs, Resident self.cb_ fs → (∀ f, f ∈ fs → f.header.keyframe = false) →
      ∀ fuel, fs.length < fuel →
        destructor fuel self
          = some { state := { cb_ := self.cb_.drained, fp_ := [] }, total := 0, frames := 0 }) ∧
    ((∀ c, c ∈ calls → c.flags &&& FLAG_KEYFRAME = 0) →
      ∀ fuel, capacity / 16 < fuel →
        destructor fuel self
          = some { state := { cb_ := self.cb_.drained, fp_ := [] }, total := 0, frames := 0 }) ∧
    self.cb_.drained.Empty = true := by
  have key : ∀ fs, Resident self.cb_ fs → (∀ f, f ∈ fs → f.header.keyframe = false) →
      ∀ fuel, fs.length < fuel → destructor fuel self
        = some { state := { cb_ := self.cb_.drained, fp_ := [] }, total := 0, frames := 0 } := by
    intro fs hres hno fuel hf
    rw [destructor_spec hc hr hres fuel hf, fromFirstKeyframe_eq_nil hno]
    rfl
  refine ⟨key, ?_, by simp [RingBuffer.drained, RingBuffer.Empty]⟩
  intro hflags fuel hf
  obtain ⟨n, hres⟩ := hr.resident h0 hc
  have hlen := length_lt_of_resident hres
  rw [hr.capacity_eq.1] at hlen
  refine key _ hres ?_ fuel (by omega)
  intro f hf
  obtain ⟨c, hc1, hc2⟩ := List.mem_map.1 (List.mem_of_mem_drop hf)
  rw [← hc2]
  simp [Call.frame, newFrame, hflags c hc1]

/-- Witness of C7: two frames without the keyframe bit on a buffer of 176 bytes. -/
theorem flush_without_keyframe_writes_nothing_witness :
    0 < 176 ∧ 176 ≤ 2 ^ 32 ∧ Reachable 176 plainCalls plainState ∧
    Resident plainState.cb_ (plainCalls.map Call.frame) ∧
    (∀ f, f ∈ plainCalls.map Call.frame → f.header.keyframe = false) ∧
    (∀ c, c ∈ plainCalls → c.flags &&& FLAG_KEYFRAME = 0) ∧
    destructor 3 plainState
      = some { state := { cb_ := plainState.cb_.drained, fp_ := [] }, total := 0, frames := 0 } ∧
    destructor 12 plainState
      = some { state := { cb_ := plainState.cb_.drained, fp_ := [] }, total := 0, frames := 0 } ∧
    plainState.cb_.drained.Empty = true :=
  ⟨by decide, by decide, plainState_reachable, plainState_resident, by decide, by decide,
    (flush_without_keyframe_writes_nothing (by decide) (by decide) plainState_reachable).1
      _ plainState_resident (by decide) 3 (by decide),
    (flush_without_keyframe_writes_nothing (by decide) (by decide) plainState_reachable).2.1
      (by decide) 12 (by decide),
    (flush_without_keyframe_writes_nothing (by decide) (by decide) plainState_reachable).2.2⟩

/-! ## The two ways out of outputBuffer -/

theorem outputBuffer_inv {fuel : Nat} {self : State} {mem : List Nat} {timestamp_us : Int}
    {flags : Nat} {out : Outcome} (h : outputBuffer fuel self mem timestamp_us flags = some out) :
    ∃ cb2 exit,
      evictLoop ((mem.length + padOfSize mem.length + SIZEOF_HEADER) % 2 ^ 64) fuel self.cb_
        = some (cb2, exit) ∧
      (exit = LoopExit.threw →
        out = { state := { cb_ := cb2, fp_ := self.fp_ },
                error := some "circular buffer too small" }) ∧
      (exit = LoopExit.enoughSpace →
        out = { state := { cb_ := ((cb2.Write (newFrame mem timestamp_us flags).header.bytes).Write
                             mem).Pad (padOfSize mem.length), fp_ := self.fp_ },
                error := none }) := by
  simp only [outputBuffer] at h
  split at h
  · exact absurd h (by simp)
  · rename_i cb he
    cases h
    exact ⟨cb, LoopExit.threw, he, fun _ => rfl, fun e => (by cases e)⟩
  · rename_i cb he
    cases h
    refine ⟨cb, LoopExit.enoughSpace, he, fun e => (by cases e), fun _ => ?_⟩
    simp only [newFrame]

theorem storage_after_write (cb : RingBuffer) (header : Header) (mem : List Nat) (pad : Nat) :
    (((cb.Write header.bytes).Write mem).Pad pad).storage
      = writeAt cb.storage cb.capacity cb.write (header.bytes ++ mem) := by
  simp only [RingBuffer.Pad, RingBuffer.Write]
  rw [writeAt_append, writeAt_mod]

theorem stored_frame_readable (cb : RingBuffer) (header : Header) (mem : List Nat) (pad : Nat)
    (hs : cb.storage.length = cb.capacity) (hfit : SIZEOF_HEADER + mem.length ≤ cb.capacity) :
    readBytes (((cb.Write header.bytes).Write mem).Pad pad).storage cb.capacity cb.write
        SIZEOF_HEADER = header.bytes ∧
    readBytes (((cb.Write header.bytes).Write mem).Pad pad).storage cb.capacity
        (cb.write + SIZEOF_HEADER) mem.length = mem := by
  simp only [SIZEOF_HEADER] at hfit ⊢
  have hlen : (header.bytes ++ mem).length = 16 + mem.length := by
    rw [List.length_append, Header.length_bytes]
  have hrb : readBytes (writeAt cb.storage cb.capacity cb.write (header.bytes ++ mem))
      cb.capacity cb.write (16 + mem.length) = header.bytes ++ mem := by
    rw [← hlen]
    exact readBytes_writeAt_same _ _ _ _ hs (by omega)
  rw [readBytes_add] at hrb
  have hsplit := List.append_inj hrb (by rw [length_readBytes, Header.length_bytes])
  rw [storage_after_write]
  exact hsplit

theorem available_le_capacity (cb : RingBuffer) : cb.Available ≤ cb.capacity := by
  unfold RingBuffer.Available
  exact Nat.sub_le _ _

/-! ## Space left while a frame is being written -/

theorem available_after_advance {capacity r u n : Nat} (hr : r < capacity)
    (hn : u + n ≤ capacity) :
    capacity - u - n ≤ capacity - ((r + (u + n)) % capacity + capacity - r) % capacity := by
  by_cases h : u + n < capacity
  · rw [cyclic_distance hr h]
    omega
  · have e : u + n = capacity := by omega
    rw [e, Nat.add_mod_right, Nat.mod_eq_of_lt hr,
      show r + capacity - r = capacity by omega, Nat.mod_self]
    omega

theorem Resident.available_after_header {cb : RingBuffer} {fs : List Frame}
    (h : Resident cb fs) (bytes : List Nat) (hfit : bytes.length ≤ cb.Available) :
    cb.Available - bytes.length ≤ (cb.Write bytes).Available := by
  have hav := h.available
  obtain ⟨_, hr, hu, hw, _⟩ := h
  rw [hav] at hfit ⊢
  have := @available_after_advance cb.capacity cb.read (footprints fs) bytes.length hr
    (by omega)
  simp only [RingBuffer.Available, RingBuffer.Write, hw, Nat.mod_add_mod, Nat.add_assoc]
  exact this

theorem Resident.available_after_payload {cb : RingBuffer} {fs : List Frame}
    (h : Resident cb fs) (xs ys : List Nat) (hfit : xs.length + ys.length ≤ cb.Available) :
    cb.Available - xs.length - ys.length ≤ ((cb.Write xs).Write ys).Available := by
  have hav := h.available
  obtain ⟨_, hr, hu, hw, _⟩ := h
  rw [hav] at hfit ⊢
  have := @available_after_advance cb.capacity cb.read (footprints fs)
    (xs.length + ys.length) hr (by omega)
  simp only [RingBuffer.Available, RingBuffer.Write, hw, Nat.mod_add_mod, Nat.add_assoc]
  omega

theorem exit_resident {capacity : Nat} {calls : List Call} {self : State} {F : List Frame}
    {need fuel : Nat} {cb2 : RingBuffer} {exit : LoopExit} (hc : capacity ≤ 2 ^ 32)
    (hr : Reachable capacity calls self) (hres : Resident self.cb_ F)
    (he : evictLoop need fuel self.cb_ = some (cb2, exit)) :
    ∃ k, k ≤ F.length ∧ cb2 = evictOne^[k] self.cb_ ∧ cb2.capacity = capacity ∧
      Resident cb2 (F.drop k) ∧
      cb2.read = (self.cb_.read + footprints (F.take k)) % capacity ∧
      (∀ j, j < k → (evictOne^[j] self.cb_).Available < need ∧
        (evictOne^[j] self.cb_).Available = capacity - footprints (F.drop j)) ∧
      (exit = LoopExit.enoughSpace → need ≤ cb2.Available) ∧
      (exit = LoopExit.threw → cb2.Available < need ∧ cb2.Empty = true ∧ k = F.length) := by
  have hcap := hr.capacity_eq.1
  obtain ⟨k, hk, hne, hen, hth⟩ := evictLoop_iterate he
  have hit := iterate_evictOne_resident hres (by omega) k (fun j hj => (hne j hj).2)
  obtain ⟨hkl, hcapk, hresk, hreadk⟩ := hit k (Nat.le_refl k)
  rw [← hk] at hresk hcapk hreadk
  refine ⟨k, hkl, hk, by omega, hresk, by rw [hreadk, hcap], ?_, hen, ?_⟩
  · intro j hj
    obtain ⟨_, hcapj, hresj, _⟩ := hit j (by omega)
    exact ⟨(hne j hj).1, by rw [hresj.available, hcapj, hcap]⟩
  · intro e
    obtain ⟨h1, h2⟩ := hth e
    refine ⟨h1, h2, ?_⟩
    have h3 := hresk.empty_iff.1 h2
    have h4 := congrArg List.length h3
    simp only [List.length_drop, List.length_nil] at h4
    omega

/-! ## The iterations of the flush loop -/

theorem flushLoop_succ {cb : RingBuffer} (hem : cb.Empty = false) (fuel : Nat) (fp : List Nat)
    (total frames : Nat) (seen : Bool) :
    ∃ fp2 total2 frames2, flushLoop (fuel + 1) cb fp total frames seen
      = flushLoop fuel (flushStep cb seen).1 fp2 total2 frames2 (flushStep cb seen).2 := by
  simp only [flushLoop, flushStep, hem, Bool.not_false, if_true]
  split
  · exact ⟨_, _, _, rfl⟩
  · exact ⟨_, _, _, rfl⟩

theorem flushAfter_succ (j : Nat) (cb : RingBuffer) (seen : Bool) :
    flushAfter (j + 1) cb seen
      = flushStep (flushAfter j cb seen).1 (flushAfter j cb seen).2 := by
  simp only [flushAfter, Function.iterate_succ_apply']

theorem flushStep_resident {cb : RingBuffer} {f : Frame} {fs : List Frame}
    (h : Resident cb (f :: fs)) (hc : cb.capacity ≤ 2 ^ 32) (seen : Bool) :
    Resident (flushStep cb seen).1 fs ∧
    (flushStep cb seen).1.read = (cb.read + f.footprint) % cb.capacity ∧
    (flushStep cb seen).1.capacity = cb.capacity ∧
    (flushStep cb seen).1.storage = cb.storage ∧ (flushStep cb seen).1.write = cb.write := by
  obtain ⟨hl, hk⟩ := h.header_read hc
  have hlen := h.length_lt hc (List.mem_cons_self f fs)
  have hread : (flushStep cb seen).1.read = (cb.read + f.footprint) % cb.capacity := by
    simp only [flushStep, hl, hk]
    split
    · simp only [RingBuffer.Skip, RingBuffer.Read, skipPad_eq, Nat.mod_add_mod,
        Frame.footprint, Nat.add_assoc]
    · simp only [RingBuffer.Skip, RingBuffer.Read, skipWhole_eq _
        (show f.header.length + 15 < 2 ^ 32 by omega), Nat.mod_add_mod, Frame.footprint,
        Nat.add_assoc]
  have hcap : (flushStep cb seen).1.capacity = cb.capacity := by
    simp only [flushStep]; split <;> rfl
  have hst : (flushStep cb seen).1.storage = cb.storage := by
    simp only [flushStep]; split <;> rfl
  have hwr : (flushStep cb seen).1.write = cb.write := by
    simp only [flushStep]; split <;> rfl
  exact ⟨h.advance _ hcap hst hwr hread, hread, hcap, hst, hwr⟩

theorem flushAfter_resident {cb : RingBuffer} {fs : List Frame} (h : Resident cb fs)
    (hc : cb.capacity ≤ 2 ^ 32) (seen : Bool) :
    ∀ j, j ≤ fs.length → Resident (flushAfter j cb seen).1 (fs.drop j) ∧
      (flushAfter j cb seen).1.read = (cb.read + footprints (fs.take j)) % cb.capacity ∧
      (flushAfter j cb seen).1.capacity = cb.capacity ∧
      (flushAfter j cb seen).1.storage = cb.storage ∧
      (flushAfter j cb seen).1.write = cb.write := by
  intro j
  induction j with
  | zero =>
    intro _
    refine ⟨h, ?_, rfl, rfl, rfl⟩
    simp only [flushAfter, Function.iterate_zero, id_eq, List.take_zero, footprints,
      Nat.add_zero]
    exact (Nat.mod_eq_of_lt h.2.1).symm
  | succ j ih =>
    intro hj
    obtain ⟨hres, hread, hcap, hst, hwr⟩ := ih (by omega)
    have hdc := List.drop_eq_getElem_cons (show j < fs.length by omega)
    rw [hdc] at hres
    obtain ⟨h1, h2, h3, h4, h5⟩ := flushStep_resident hres (by omega) (flushAfter j cb seen).2
    have htake : footprints (fs.take (j + 1)) = footprints (fs.take j) + fs[j].footprint := by
      rw [List.take_succ, List.getElem?_eq_getElem (show j < fs.length by omega),
        footprints_append]
      simp [footprints]
    rw [flushAfter_succ]
    refine ⟨h1, ?_, h3.trans hcap, h4.trans hst, h5.trans hwr⟩
    rw [h2, hread, hcap, Nat.mod_add_mod, htake, Nat.add_assoc]

theorem flushLoop_none (fuel : Nat) :
    ∀ (fs : List Frame) (cb : RingBuffer) (fp : List Nat) (total frames : Nat) (seen : Bool),
      Resident cb fs → cb.capacity ≤ 2 ^ 32 → fuel ≤ fs.length →
      flushLoop fuel cb fp total frames seen = none := by
  induction fuel with
  | zero => intro fs cb fp total frames seen _ _ _; rfl
  | succ n ih =>
    intro fs cb fp total frames seen h hc hf
    cases fs with
    | nil => simp at hf
    | cons f fs =>
      have hem : cb.Empty = false := by
        cases he : cb.Empty
        · rfl
        · exact absurd (h.empty_iff.1 he) (by simp)
      obtain ⟨fp2, total2, frames2, e⟩ := flushLoop_succ hem n fp total frames seen
      obtain ⟨h1, _, h3, _, _⟩ := flushStep_resident h hc seen
      rw [e]
      exact ih fs _ _ _ _ _ h1 (by omega) (by simpa using hf)

/-! ## Cursors on 16-byte boundaries -/

theorem readBytes_contiguous (storage : List Nat) (capacity pos n : Nat)
    (hs : storage.length = capacity) (hn : pos + n ≤ capacity) :
    readBytes storage capacity pos n = (storage.drop pos).take n := by
  apply List.ext_getElem
  · simp only [length_readBytes, List.length_take, List.length_drop]
    omega
  · intro i h1 h2
    rw [length_readBytes] at h1
    simp only [readBytes, List.getElem_map, List.getElem_range, List.getElem_take,
      List.getElem_drop]
    rw [Nat.mod_eq_of_lt (by omega), List.getD_eq_getElem?_getD,
      List.getElem?_eq_getElem (by omega)]
    rfl

theorem skipWhole_aligned (length : Nat) : 16 ∣ skipWhole length := by
  unfold skipWhole ALIGN
  rw [and_high_mask _ (Nat.mod_lt _ (by norm_num))]
  exact Nat.dvd_mul_left 16 _

theorem skipPad_aligned (length : Nat) : 16 ∣ length + skipPad length := by
  rw [skipPad_eq]
  unfold padTo16
  omega

theorem evictOne_aligned {capacity : Nat} {cb : RingBuffer} (h0 : 0 < capacity)
    (h16 : 16 ∣ capacity) (hcap : cb.capacity = capacity) (hr : 16 ∣ cb.read) :
    (evictOne cb).capacity = capacity ∧ (evictOne cb).storage = cb.storage ∧
    (evictOne cb).write = cb.write ∧ (evictOne cb).read < capacity ∧
    16 ∣ (evictOne cb).read := by
  refine ⟨hcap, rfl, rfl, ?_, ?_⟩
  · simp only [evictOne, RingBuffer.Skip, RingBuffer.Read, hcap]
    exact Nat.mod_lt _ h0
  · simp only [evictOne, RingBuffer.Skip, RingBuffer.Read, hcap, SIZEOF_HEADER]
    exact aligned_step h16 (aligned_step h16 hr (Nat.dvd_refl 16)) (skipWhole_aligned _)

theorem flushStep_aligned {capacity : Nat} {cb : RingBuffer} (h0 : 0 < capacity)
    (h16 : 16 ∣ capacity) (hcap : cb.capacity = capacity) (hr : 16 ∣ cb.read) (seen : Bool) :
    (flushStep cb seen).1.capacity = capacity ∧ (flushStep cb seen).1.storage = cb.storage ∧
    (flushStep cb seen).1.write = cb.write ∧ (flushStep cb seen).1.read < capacity ∧
    16 ∣ (flushStep cb seen).1.read := by
  simp only [flushStep]
  split
  · refine ⟨hcap, rfl, rfl, ?_, ?_⟩
    · simp only [RingBuffer.Skip, RingBuffer.Read, hcap]
      exact Nat.mod_lt _ h0
    · simp only [RingBuffer.Skip, RingBuffer.Read, hcap, SIZEOF_HEADER, Nat.mod_add_mod]
      rw [Nat.add_assoc]
      exact aligned_step h16 (Nat.dvd_add hr (Nat.dvd_refl 16)) (skipPad_aligned _)
  · refine ⟨hcap, rfl, rfl, ?_, ?_⟩
    · simp only [RingBuffer.Skip, RingBuffer.Read, hcap]
      exact Nat.mod_lt _ h0
    · simp only [RingBuffer.Skip, RingBuffer.Read, hcap, SIZEOF_HEADER]
      exact aligned_step h16 (aligned_step h16 hr (Nat.dvd_refl 16)) (skipWhole_aligned _)

theorem iterate_evictOne_aligned {capacity : Nat} {cb : RingBuffer} (h0 : 0 < capacity)
    (h16 : 16 ∣ capacity) (hcap : cb.capacity = capacity) (hlt : cb.read < capacity)
    (hr : 16 ∣ cb.read) (j : Nat) :
    (evictOne^[j] cb).capacity = capacity ∧ (evictOne^[j] cb).storage = cb.storage ∧
    (evictOne^[j] cb).write = cb.write ∧ (evictOne^[j] cb).read < capacity ∧
    16 ∣ (evictOne^[j] cb).read := by
  induction j with
  | zero => exact ⟨hcap, rfl, rfl, hlt, hr⟩
  | succ j ih =>
    obtain ⟨a, b, c, _, d⟩ := ih
    obtain ⟨a2, b2, c2, d2, e2⟩ := evictOne_aligned h0 h16 a d
    rw [Function.iterate_succ_apply']
    exact ⟨a2, b2.trans b, c2.trans c, d2, e2⟩

theorem flushAfter_aligned {capacity : Nat} {cb : RingBuffer} (h0 : 0 < capacity)
    (h16 : 16 ∣ capacity) (hcap : cb.capacity = capacity) (hlt : cb.read < capacity)
    (hr : 16 ∣ cb.read) (seen : Bool) (j : Nat) :
    (flushAfter j cb seen).1.capacity = capacity ∧ (flushAfter j cb seen).1.storage = cb.storage ∧
    (flushAfter j cb seen).1.write = cb.write ∧ (flushAfter j cb seen).1.read < capacity ∧
    16 ∣ (flushAfter j cb seen).1.read := by
  induction j with
  | zero => exact ⟨hcap, rfl, rfl, hlt, hr⟩
  | succ j ih =>
    obtain ⟨a, b, c, _, d⟩ := ih
    obtain ⟨a2, b2, c2, d2, e2⟩ := flushStep_aligned h0 h16 a d (flushAfter j cb seen).2
    rw [flushAfter_succ]
    exact ⟨a2, b2.trans b, c2.trans c, d2, e2⟩

theorem Reachable.cursors {capacity : Nat} {calls : List Call} {self : State}
    (h : Reachable capacity calls self) (h0 : 0 < capacity) (h16 : 16 ∣ capacity) :
    self.cb_.storage.length = capacity ∧ self.cb_.read < capacity ∧
    self.cb_.write < capacity ∧ 16 ∣ self.cb_.read := by
  induction h with
  | create => exact ⟨by simp [State.create, RingBuffer.create], h0, h0, Nat.dvd_zero 16⟩
  | @call calls self fuel c out hr _ e ih =>
    obtain ⟨hs, hlt, hw, hal⟩ := ih
    have hcap := hr.capacity_eq.1
    obtain ⟨hlen, hcases, herr, hok⟩ := outputBuffer_write e
    obtain ⟨cb2, exit, he, hthrew, henough⟩ := outputBuffer_inv e
    obtain ⟨k, hk, _, _, _⟩ := evictLoop_iterate he
    obtain ⟨_, _, _, hlt2, hal2⟩ := iterate_evictOne_aligned h0 h16 hcap hlt hal k
    rw [← hk] at hlt2 hal2
    have hread : out.state.cb_.read = cb2.read := by
      cases exit with
      | threw => rw [hthrew rfl]
      | enoughSpace =>
        rw [henough rfl]
        simp only [RingBuffer.Pad, RingBuffer.Write]
    refine ⟨hlen.trans hs, by rw [hread]; exact hlt2, ?_, by rw [hread]; exact hal2⟩
    rcases hcases with h1 | h1
    · rw [(herr (by simp [h1])).1]; exact hw
    · rw [hok h1, hcap]; exact Nat.mod_lt _ h0

theorem Reachable.storage_length {capacity : Nat} {calls : List Call} {self : State}
    (h : Reachable capacity calls self) : self.cb_.storage.length = capacity := by
  induction h with
  | create => simp [State.create, RingBuffer.create]
  | @call calls self fuel c out _ _ e ih => exact (outputBuffer_write e).1.trans ih

theorem capacity_pos_of_exit {need fuel : Nat} {cb cb2 : RingBuffer}
    (he : evictLoop need fuel cb = some (cb2, LoopExit.enoughSpace)) (hn : 0 < need) :
    0 < cb.capacity := by
  obtain ⟨hcap, _, _⟩ := evictLoop_frame he
  obtain ⟨k, _, _, hfit, _⟩ := evictLoop_iterate he
  have h1 := hfit rfl
  have h2 := available_le_capacity cb2
  omega

/-- C11. Only the keyframe bit of `flags` matters: for every state, payload and timestamp, two
`flags` values that agree on the `FLAG_KEYFRAME` bit make `outputBuffer` produce the same
result (same cursors, same stored bytes, same outcome); and after a successful call the header
stored at the former write cursor has `keyframe = true` iff `flags & FLAG_KEYFRAME` is
non-zero. -/
theorem only_keyframe_bit_matters (fuel : Nat) (self : State) (mem : List Nat)
    (timestamp_us : Int) (flags flags2 : Nat)
    (h : flags &&& FLAG_KEYFRAME = flags2 &&& FLAG_KEYFRAME) :
    outputBuffer fuel self mem timestamp_us flags
      = outputBuffer fuel self mem timestamp_us flags2 ∧
    ∀ out, self.cb_.storage.length = self.cb_.capacity → mem.length < 2 ^ 63 →
      outputBuffer fuel self mem timestamp_us flags = some out → out.error = none →
      ((Header.ofBytes (readBytes out.state.cb_.storage self.cb_.capacity self.cb_.write
          SIZEOF_HEADER)).keyframe = true ↔ flags &&& FLAG_KEYFRAME ≠ 0) := by
  refine ⟨by simp only [outputBuffer, h], ?_⟩
  intro out hs hm e hok
  obtain ⟨cb2, exit, he, hthrew, henough⟩ := outputBuffer_inv e
  cases exit with
  | threw => rw [hthrew rfl] at hok; exact absurd hok (by simp)
  | enoughSpace =>
    obtain ⟨hcap, hst, hwr⟩ := evictLoop_frame he
    obtain ⟨k, _, _, hfit, _⟩ := evictLoop_iterate he
    have hfit2 := hfit rfl
    rw [need_eq _ hm] at hfit2
    have hav := available_le_capacity cb2
    have hf : footprintOfSize mem.length = SIZEOF_HEADER + mem.length + padTo16 mem.length := rfl
    have := (stored_frame_readable cb2 (newFrame mem timestamp_us flags).header mem
      (padOfSize mem.length) (by rw [hst, hcap]; exact hs) (by omega)).1
    rw [henough rfl]
    simp only
    rw [← hcap, ← hwr, this, Header.ofBytes_bytes_keyframe]
    simp [newFrame]

/-- Witness of C11: the flag values 0 and 2 on the example state. -/
theorem only_keyframe_bit_matters_witness :
    0 &&& FLAG_KEYFRAME = 2 &&& FLAG_KEYFRAME ∧
    outputBuffer 12 exampleState (List.replicate 20 7) 6000 0
      = outputBuffer 12 exampleState (List.replicate 20 7) 6000 2 ∧
    exampleState.cb_.storage.length = exampleState.cb_.capacity ∧
    (List.replicate 20 7).length < 2 ^ 63 ∧
    outputBuffer 12 exampleState (List.replicate 20 7) 6000 0 = some exampleAppended ∧
    exampleAppended.error = none ∧
    ((Header.ofBytes (readBytes exampleAppended.state.cb_.storage exampleState.cb_.capacity
        exampleState.cb_.write SIZEOF_HEADER)).keyframe = true ↔ 0 &&& FLAG_KEYFRAME ≠ 0) :=
  ⟨by decide, (only_keyframe_bit_matters 12 exampleState (List.replicate 20 7) 6000 0 2
      (by decide)).1,
    by decide!, by decide, exampleAppended_eq, by decide!,
    (only_keyframe_bit_matters 12 exampleState (List.replicate 20 7) 6000 0 2
      (by decide)).2 exampleAppended (by decide!) (by decide) exampleAppended_eq (by decide!)⟩

/-- C13. Pad arithmetic: for every size, `pad = (ALIGN - size) & (ALIGN - 1)` computed in
`size_t` equals `(-size) mod 16`, lies between 0 and 15, is the least value that makes
`size + pad` a multiple of 16, and `sizeof(Header) + size + pad` is a multiple of 16 given that
`sizeof(Header)` is one. -/
theorem pad_arithmetic (size : Nat) :
    padOfSize size = ((-(size : Int)) % 16).toNat ∧ padOfSize size ≤ 15 ∧
    (size + padOfSize size) % 16 = 0 ∧
    (∀ p, (size + p) % 16 = 0 → padOfSize size ≤ p) ∧
    SIZEOF_HEADER % 16 = 0 ∧ (SIZEOF_HEADER + size + padOfSize size) % 16 = 0 := by
  rw [padOfSize_eq]
  unfold padTo16 SIZEOF_HEADER
  refine ⟨by omega, by omega, by omega, fun p hp => by omega, by omega, by omega⟩

/-- Witness of C13: the size 37, whose pad is 11. -/
theorem pad_arithmetic_witness :
    padOfSize 37 = ((-(37 : Int)) % 16).toNat ∧ padOfSize 37 ≤ 15 ∧
    (37 + padOfSize 37) % 16 = 0 ∧ (37 + 11) % 16 = 0 ∧ padOfSize 37 ≤ 11 ∧
    SIZEOF_HEADER % 16 = 0 ∧ (SIZEOF_HEADER + 37 + padOfSize 37) % 16 = 0 :=
  ⟨(pad_arithmetic 37).1, (pad_arithmetic 37).2.1, (pad_arithmetic 37).2.2.1, by decide,
    (pad_arithmetic 37).2.2.2.1 11 (by decide), (pad_arithmetic 37).2.2.2.2.1,
    (pad_arithmetic 37).2.2.2.2.2⟩

/-- C14. The three consumers agree on a frame's footprint: for every stored length `L` with
`L + 15` below `2 ^ 32`, the eviction skip and the not-yet-keyframe skip of the flush
(`(L + ALIGN - 1) & ~(ALIGN - 1)`) and the keyframe branch of the flush (read `L` bytes, skip
`(ALIGN - L) & (ALIGN - 1)`) all advance the read cursor past the header by `L + pad(L)`,
which is what `outputBuffer` advanced the write cursor by after the header. -/
theorem consumers_agree_on_footprint (L : Nat) (hL : L + 15 < 2 ^ 32) (cb : RingBuffer)
    (header : Header) (mem : List Nat) (hm : mem.length = L) :
    skipWhole L = L + padOfSize L ∧ L + skipPad L = L + padOfSize L ∧
    ((cb.Read SIZEOF_HEADER).2.Skip (skipWhole L)).read
      = (cb.read + SIZEOF_HEADER + (L + padOfSize L)) % cb.capacity ∧
    (((cb.Read SIZEOF_HEADER).2.Read L).2.Skip (skipPad L)).read
      = (cb.read + SIZEOF_HEADER + (L + padOfSize L)) % cb.capacity ∧
    (((cb.Write header.bytes).Write mem).Pad (padOfSize mem.length)).write
      = (cb.write + SIZEOF_HEADER + (L + padOfSize L)) % cb.capacity := by
  have h1 := skipWhole_eq L hL
  have h2 := skipPad_eq L
  have h3 := padOfSize_eq L
  refine ⟨by omega, by omega, ?_, ?_, ?_⟩
  · simp only [RingBuffer.Skip, RingBuffer.Read, h1, h3, Nat.mod_add_mod]
  · simp only [RingBuffer.Skip, RingBuffer.Read, h2, h3, Nat.mod_add_mod, Nat.add_assoc]
  · simp only [RingBuffer.Pad, RingBuffer.Write, Header.length_bytes, hm, SIZEOF_HEADER,
      Nat.mod_add_mod, Nat.add_assoc]

/-- Witness of C14: the length 20 on the example buffer. -/
theorem consumers_agree_on_footprint_witness :
    20 + 15 < 2 ^ 32 ∧ (List.replicate 20 7).length = 20 ∧
    skipWhole 20 = 20 + padOfSize 20 ∧ 20 + skipPad 20 = 20 + padOfSize 20 ∧
    ((exampleState.cb_.Read SIZEOF_HEADER).2.Skip (skipWhole 20)).read
      = (exampleState.cb_.read + SIZEOF_HEADER + (20 + padOfSize 20))
          % exampleState.cb_.capacity ∧
    (((exampleState.cb_.Read SIZEOF_HEADER).2.Read 20).2.Skip (skipPad 20)).read
      = (exampleState.cb_.read + SIZEOF_HEADER + (20 + padOfSize 20))
          % exampleState.cb_.capacity ∧
    (((exampleState.cb_.Write (newFrame (List.replicate 20 7) 6000 0).header.bytes).Write
        (List.replicate 20 7)).Pad (padOfSize (List.replicate 20 7).length)).write
      = (exampleState.cb_.write + SIZEOF_HEADER + (20 + padOfSize 20))
          % exampleState.cb_.capacity :=
  ⟨by decide, by decide,
    consumers_agree_on_footprint 20 (by decide) exampleState.cb_
      (newFrame (List.replicate 20 7) 6000 0).header (List.replicate 20 7) (by decide)⟩

/-- C12. The write precondition is always discharged: for every reachable state and every
`outputBuffer` call that leaves the eviction loop for the write phase, `Available()` is then at
least `sizeof(Header) + size + pad`, and each of `Write(header)`, `Write(payload)` and
`Pad(pad)` is made with at least as many bytes available as it consumes. -/
theorem write_precondition_holds {capacity : Nat} {calls : List Call} {self : State}
    {fuel : Nat} {mem : List Nat} {cb2 : RingBuffer}
    (hc : capacity ≤ 2 ^ 32) (hr : Reachable capacity calls self) (hm : mem.length < 2 ^ 63)
    (header : Header)
    (he : evictLoop ((mem.length + padOfSize mem.length + SIZEOF_HEADER) % 2 ^ 64) fuel
      self.cb_ = some (cb2, LoopExit.enoughSpace)) :
    SIZEOF_HEADER + mem.length + padOfSize mem.length ≤ cb2.Available ∧
    header.bytes.length ≤ cb2.Available ∧
    mem.length + padOfSize mem.length ≤ (cb2.Write header.bytes).Available ∧
    padOfSize mem.length ≤ ((cb2.Write header.bytes).Write mem).Available := by
  have h0 : 0 < capacity := by
    have := capacity_pos_of_exit he (by rw [need_eq _ hm]; simp [footprintOfSize, SIZEOF_HEADER])
    rw [hr.capacity_eq.1] at this
    exact this
  obtain ⟨n, hres⟩ := hr.resident h0 hc
  obtain ⟨k, _, _, _, hresk, _, _, hen, _⟩ := exit_resident hc hr hres he
  have hfit := hen rfl
  rw [need_eq _ hm] at hfit
  have hlen := Header.length_bytes header
  simp only [footprintOfSize, SIZEOF_HEADER, ← padOfSize_eq] at hfit ⊢
  have h1 := hresk.available_after_header header.bytes (by omega)
  have h2 := hresk.available_after_payload header.bytes mem (by omega)
  refine ⟨by omega, by omega, by omega, by omega⟩

/-- Witness of C12: the call with 20 payload bytes on the example state, which leaves the
eviction loop after one eviction. -/
theorem write_precondition_holds_witness :
    176 ≤ 2 ^ 32 ∧ Reachable 176 exampleCalls exampleState ∧
    (List.replicate 20 7).length < 2 ^ 63 ∧
    evictLoop (((List.replicate 20 7).length + padOfSize (List.replicate 20 7).length
        + SIZEOF_HEADER) % 2 ^ 64) 12 exampleState.cb_
      = some (evictOne exampleState.cb_, LoopExit.enoughSpace) ∧
    SIZEOF_HEADER + (List.replicate 20 7).length + padOfSize (List.replicate 20 7).length
      ≤ (evictOne exampleState.cb_).Available ∧
    (newFrame (List.replicate 20 7) 6000 0).header.bytes.length
      ≤ (evictOne exampleState.cb_).Available ∧
    (List.replicate 20 7).length + padOfSize (List.replicate 20 7).length
      ≤ ((evictOne exampleState.cb_).Write
          (newFrame (List.replicate 20 7) 6000 0).header.bytes).Available ∧
    padOfSize (List.replicate 20 7).length
      ≤ (((evictOne exampleState.cb_).Write
          (newFrame (List.replicate 20 7) 6000 0).header.bytes).Write
            (List.replicate 20 7)).Available :=
  ⟨by decide, exampleState_reachable, by decide, by decide!,
    @write_precondition_holds 176 exampleCalls exampleState 12 (List.replicate 20 7)
      (evictOne exampleState.cb_) (by decide) exampleState_reachable (by decide)
      (newFrame (List.replicate 20 7) 6000 0).header (by decide!)⟩

/-- C15. Minimal eviction: for every reachable state with resident frames `F` and every
successful `outputBuffer` call, the number `k` of frames evicted is the least number such that
after discarding the `k` oldest resident frames the footprint of the new frame does not exceed
`Available()`; in particular, if the footprint is at most `Available()` on entry, the eviction
loop exits at once, the read cursor is unchanged and no resident frame is evicted. -/
theorem eviction_is_minimal {capacity : Nat} {calls : List Call} {self : State}
    {F : List Frame} {fuel : Nat} {mem : List Nat} {timestamp_us : Int} {flags : Nat}
    {out : Outcome} (hc : capacity ≤ 2 ^ 32) (hr : Reachable capacity calls self)
    (hres : Resident self.cb_ F) (hm : mem.length < 2 ^ 63)
    (e : outputBuffer fuel self mem timestamp_us flags = some out) (hok : out.error = none) :
    ∃ k, k ≤ F.length ∧
      out.state.cb_.read = (evictOne^[k] self.cb_).read ∧
      out.state.cb_.read = (self.cb_.read + footprints (F.take k)) % capacity ∧
      Resident (evictOne^[k] self.cb_) (F.drop k) ∧
      SIZEOF_HEADER + mem.length + padOfSize mem.length ≤ (evictOne^[k] self.cb_).Available ∧
      (∀ j, j < k →
        (evictOne^[j] self.cb_).Available < SIZEOF_HEADER + mem.length + padOfSize mem.length ∧
        (evictOne^[j] self.cb_).Available = capacity - footprints (F.drop j)) ∧
      (SIZEOF_HEADER + mem.length + padOfSize mem.length ≤ self.cb_.Available →
        k = 0 ∧ out.state.cb_.read = self.cb_.read) := by
  obtain ⟨cb2, exit, he, hthrew, henough⟩ := outputBuffer_inv e
  cases exit with
  | threw => rw [hthrew rfl] at hok; exact absurd hok (by simp)
  | enoughSpace =>
    obtain ⟨k, hkl, hk, hcapk, hresk, hreadk, hmin, hen, _⟩ := exit_resident hc hr hres he
    have hfit := hen rfl
    have hneed : (mem.length + padOfSize mem.length + SIZEOF_HEADER) % 2 ^ 64
        = SIZEOF_HEADER + mem.length + padOfSize mem.length := by
      rw [need_eq _ hm, padOfSize_eq]; rfl
    rw [hneed] at hfit hmin
    have hread : out.state.cb_.read = cb2.read := by
      rw [henough rfl]
      simp only [RingBuffer.Pad, RingBuffer.Write]
    refine ⟨k, hkl, by rw [hread, hk], by rw [hread, hreadk], by rw [← hk]; exact hresk,
      by rw [← hk]; exact hfit, hmin, ?_⟩
    intro hent
    have hk0 : k = 0 := by
      by_contra hne
      have := (hmin 0 (by omega)).1
      simp only [Function.iterate_zero, id_eq] at this
      omega
    subst hk0
    refine ⟨rfl, ?_⟩
    rw [hread, hk]
    rfl

/-- Witness of C15: the call with 20 payload bytes on the example state, which evicts one
frame. -/
theorem eviction_is_minimal_witness :
    176 ≤ 2 ^ 32 ∧ Reachable 176 exampleCalls exampleState ∧
    Resident exampleState.cb_ (exampleCalls.map Call.frame) ∧
    (List.replicate 20 7).length < 2 ^ 63 ∧
    outputBuffer 12 exampleState (List.replicate 20 7) 6000 0 = some exampleAppended ∧
    exampleAppended.error = none ∧
    ∃ k, k ≤ (exampleCalls.map Call.frame).length ∧
      exampleAppended.state.cb_.read = (evictOne^[k] exampleState.cb_).read ∧
      exampleAppended.state.cb_.read
        = (exampleState.cb_.read + footprints ((exampleCalls.map Call.frame).take k)) % 176 ∧
      Resident (evictOne^[k] exampleState.cb_) ((exampleCalls.map Call.frame).drop k) ∧
      SIZEOF_HEADER + (List.replicate 20 7).length + padOfSize (List.replicate 20 7).length
        ≤ (evictOne^[k] exampleState.cb_).Available ∧
      (∀ j, j < k →
        (evictOne^[j] exampleState.cb_).Available
          < SIZEOF_HEADER + (List.replicate 20 7).length
            + padOfSize (List.replicate 20 7).length ∧
        (evictOne^[j] exampleState.cb_).Available
          = 176 - footprints ((exampleCalls.map Call.frame).drop j)) ∧
      (SIZEOF_HEADER + (List.replicate 20 7).length + padOfSize (List.replicate 20 7).length
          ≤ exampleState.cb_.Available →
        k = 0 ∧ exampleAppended.state.cb_.read = exampleState.cb_.read) :=
  ⟨by decide, exampleState_reachable, exampleState_resident, by decide, exampleAppended_eq,
    by decide!,
    eviction_is_minimal (by decide) exampleState_reachable exampleState_resident (by decide)
      exampleAppended_eq (by decide!)⟩

/-- C17. A failed append is not atomic: whenever `outputBuffer` fails with the capacity error
from a reachable state with resident frames `F`, the buffer is left `Empty()`, the read cursor
equal to the unchanged write cursor: every frame of `F` has been evicted, although the new
frame was not stored. -/
theorem failed_append_empties_buffer {capacity : Nat} {calls : List Call} {self : State}
    {F : List Frame} {fuel : Nat} {mem : List Nat} {timestamp_us : Int} {flags : Nat}
    {out : Outcome} (hc : capacity ≤ 2 ^ 32) (hr : Reachable capacity calls self)
    (hres : Resident self.cb_ F)
    (e : outputBuffer fuel self mem timestamp_us flags = some out)
    (herr : out.error = some "circular buffer too small") :
    out.state.cb_.Empty = true ∧ out.state.cb_.read = out.state.cb_.write ∧
    out.state.cb_.write = self.cb_.write ∧ out.state.cb_.storage = self.cb_.storage ∧
    out.state.cb_ = evictOne^[F.length] self.cb_ ∧
    out.state.cb_.read = (self.cb_.read + footprints F) % capacity ∧
    Resident out.state.cb_ [] := by
  obtain ⟨cb2, exit, he, hthrew, henough⟩ := outputBuffer_inv e
  cases exit with
  | enoughSpace => rw [henough rfl] at herr; exact absurd herr (by simp)
  | threw =>
    obtain ⟨k, hkl, hk, hcapk, hresk, hreadk, _, _, hth⟩ := exit_resident hc hr hres he
    obtain ⟨_, hem, hkF⟩ := hth rfl
    obtain ⟨_, hst, hwr⟩ := evictLoop_frame he
    have hout : out.state.cb_ = cb2 := by rw [hthrew rfl]
    rw [hout]
    subst hkF
    rw [List.drop_length] at hresk
    rw [List.take_length] at hreadk
    refine ⟨hem, by simpa [RingBuffer.Empty] using hem, hwr, hst, hk, hreadk, hresk⟩

/-- Witness of C17: a frame of 200 bytes offered to the example state of 176 bytes. -/
theorem failed_append_empties_buffer_witness :
    176 ≤ 2 ^ 32 ∧ Reachable 176 exampleCalls exampleState ∧
    Resident exampleState.cb_ (exampleCalls.map Call.frame) ∧
    outputBuffer 12 exampleState (List.replicate 200 7) 6000 1 = some exampleFailed ∧
    exampleFailed.error = some "circular buffer too small" ∧
    exampleFailed.state.cb_.Empty = true ∧
    exampleFailed.state.cb_.read = exampleFailed.state.cb_.write ∧
    exampleFailed.state.cb_.write = exampleState.cb_.write ∧
    exampleFailed.state.cb_.storage = exampleState.cb_.storage ∧
    exampleFailed.state.cb_ = evictOne^[(exampleCalls.map Call.frame).length] exampleState.cb_ ∧
    exampleFailed.state.cb_.read
      = (exampleState.cb_.read + footprints (exampleCalls.map Call.frame)) % 176 ∧
    Resident exampleFailed.state.cb_ [] :=
  ⟨by decide, exampleState_reachable, exampleState_resident, exampleFailed_eq, by decide!,
    failed_append_empties_buffer (by decide) exampleState_reachable exampleState_resident
      exampleFailed_eq (by decide!)⟩

/-- C16. The flush drains to exhaustion: for every reachable state with resident frames `fs`,
the loop of the destructor runs exactly `fs.length` iterations (it returns iff the fuel allows
more than `fs.length` evaluations of the loop condition), every iteration starts on a
non-empty buffer whose resident frames are the remaining ones and consumes one whole frame, so
that the bytes consumed never exceed the distance from the read cursor to the write cursor,
and the loop ends with the buffer `Empty()`, the read cursor on the write cursor. -/
theorem flush_drains_to_exhaustion {capacity : Nat} {calls : List Call} {self : State}
    {fs : List Frame} (hc : capacity ≤ 2 ^ 32) (hr : Reachable capacity calls self)
    (hres : Resident self.cb_ fs) :
    (∀ fuel, destructor fuel self = none ↔ fuel ≤ fs.length) ∧
    (∀ fuel, fs.length < fuel → ∃ rep, destructor fuel self = some rep ∧
      rep.state.cb_ = (flushAfter fs.length self.cb_ false).1 ∧
      rep.state.cb_.Empty = true ∧ rep.state.cb_.read = self.cb_.write ∧
      rep.state.cb_.write = self.cb_.write) ∧
    (∀ j, j < fs.length →
      (flushAfter j self.cb_ false).1.Empty = false ∧
      Resident (flushAfter j self.cb_ false).1 (fs.drop j) ∧
      (flushAfter (j + 1) self.cb_ false).1.read
        = (self.cb_.read + footprints (fs.take (j + 1))) % capacity ∧
      footprints (fs.take (j + 1))
        ≤ (self.cb_.write + capacity - self.cb_.read) % capacity) := by
  have hcap := hr.capacity_eq.1
  have hc2 : self.cb_.capacity ≤ 2 ^ 32 := by omega
  have hdist : (self.cb_.write + capacity - self.cb_.read) % capacity = footprints fs := by
    obtain ⟨_, h2, h3, h4, _⟩ := hres
    rw [h4, hcap]
    rw [hcap] at h2 h3
    exact cyclic_distance h2 h3
  have hsome : ∀ fuel, fs.length < fuel → destructor fuel self
      = some { state := { cb_ := self.cb_.drained, fp_ := payloads (fromFirstKeyframe fs) }
               total := lengths (fromFirstKeyframe fs)
               frames := (fromFirstKeyframe fs).length } :=
    fun fuel hf => destructor_spec hc hr hres fuel hf
  refine ⟨fun fuel => ⟨fun hn => ?_, fun hle => ?_⟩, fun fuel hf => ?_, fun j hj => ?_⟩
  · by_contra hcon
    rw [hsome fuel (by omega)] at hn
    exact absurd hn (by simp)
  · exact flushLoop_none fuel fs self.cb_ self.fp_ 0 0 false hres hc2 hle
  · refine ⟨_, hsome fuel hf, ?_, by simp [RingBuffer.drained, RingBuffer.Empty], rfl, rfl⟩
    obtain ⟨h1, h2, h3, h4, h5⟩ := flushAfter_resident hres hc2 false fs.length (Nat.le_refl _)
    rw [List.take_length] at h2
    have hw := hres.2.2.2.1
    generalize (flushAfter fs.length self.cb_ false).1 = cb2 at h1 h2 h3 h4 h5
    cases cb2
    simp only at h2 h3 h4 h5
    simp only [RingBuffer.drained, h2, h3, h4, h5, hw]
  · obtain ⟨h1, _, _, _, _⟩ := flushAfter_resident hres hc2 false j (by omega)
    obtain ⟨_, h2, _, _, _⟩ := flushAfter_resident hres hc2 false (j + 1) (by omega)
    have hne : (flushAfter j self.cb_ false).1.Empty = false := by
      cases he : (flushAfter j self.cb_ false).1.Empty
      · rfl
      · have := congrArg List.length (h1.empty_iff.1 he)
        simp only [List.length_drop, List.length_nil] at this
        omega
    have hle : footprints (fs.take (j + 1)) ≤ footprints fs := by
      have := footprints_append (fs.take (j + 1)) (fs.drop (j + 1))
      rw [List.take_append_drop] at this
      omega
    exact ⟨hne, h1, by rw [h2, hcap], by rw [hdist]; exact hle⟩

/-- Witness of C16: the five resident frames of the example state. -/
theorem flush_drains_to_exhaustion_witness :
    176 ≤ 2 ^ 32 ∧ Reachable 176 exampleCalls exampleState ∧
    Resident exampleState.cb_ (exampleCalls.map Call.frame) ∧
    (destructor 5 exampleState = none ↔ 5 ≤ (exampleCalls.map Call.frame).length) ∧
    (∃ rep, destructor 6 exampleState = some rep ∧
      rep.state.cb_
        = (flushAfter (exampleCalls.map Call.frame).length exampleState.cb_ false).1 ∧
      rep.state.cb_.Empty = true ∧ rep.state.cb_.read = exampleState.cb_.write ∧
      rep.state.cb_.write = exampleState.cb_.write) ∧
    (flushAfter 4 exampleState.cb_ false).1.Empty = false ∧
    Resident (flushAfter 4 exampleState.cb_ false).1 ((exampleCalls.map Call.frame).drop 4) ∧
    (flushAfter (4 + 1) exampleState.cb_ false).1.read
      = (exampleState.cb_.read + footprints ((exampleCalls.map Call.frame).take (4 + 1)))
          % 176 ∧
    footprints ((exampleCalls.map Call.frame).take (4 + 1))
      ≤ (exampleState.cb_.write + 176 - exampleState.cb_.read) % 176 :=
  ⟨by decide, exampleState_reachable, exampleState_resident,
    (flush_drains_to_exhaustion (by decide) exampleState_reachable exampleState_resident).1 5,
    (flush_drains_to_exhaustion (by decide) exampleState_reachable exampleState_resident).2.1
      6 (by decide),
    (flush_drains_to_exhaustion (by decide) exampleState_reachable exampleState_resident).2.2
      4 (by decide)⟩

/-- C18. Headers never wrap: with a capacity that is a multiple of 16 and a header of 16
bytes, in every state reachable from the empty buffer by `outputBuffer` calls the read cursor
and the write cursor are multiples of 16 inside the storage, so the header `outputBuffer`
writes at the write cursor and every header the eviction loop or the flush reads at its read
cursor occupies 16 contiguous bytes that end at or before the end of the storage; the header
`Read` delivers them as one unsplit slice of the storage. -/
theorem headers_never_wrap {capacity : Nat} {calls : List Call} {self : State}
    (h0 : 0 < capacity) (h16 : 16 ∣ capacity) (hr : Reachable capacity calls self) :
    SIZEOF_HEADER = 16 ∧ 16 ∣ self.cb_.read ∧ 16 ∣ self.cb_.write ∧
    self.cb_.read + SIZEOF_HEADER ≤ capacity ∧ self.cb_.write + SIZEOF_HEADER ≤ capacity ∧
    (∀ j, 16 ∣ (evictOne^[j] self.cb_).read ∧
      (evictOne^[j] self.cb_).read + SIZEOF_HEADER ≤ capacity ∧
      (evictOne^[j] self.cb_).write = self.cb_.write ∧
      ((evictOne^[j] self.cb_).Read SIZEOF_HEADER).1
        = ((evictOne^[j] self.cb_).storage.drop (evictOne^[j] self.cb_).read).take
            SIZEOF_HEADER) ∧
    (∀ j seen, 16 ∣ (flushAfter j self.cb_ seen).1.read ∧
      (flushAfter j self.cb_ seen).1.read + SIZEOF_HEADER ≤ capacity ∧
      ((flushAfter j self.cb_ seen).1.Read SIZEOF_HEADER).1
        = ((flushAfter j self.cb_ seen).1.storage.drop (flushAfter j self.cb_ seen).1.read).take
            SIZEOF_HEADER) := by
  have hcap := hr.capacity_eq.1
  have hwal := hr.write_aligned h16
  obtain ⟨hs, hlt, hwlt, hal⟩ := hr.cursors h0 h16
  have hfit : ∀ x, x < capacity → 16 ∣ x → x + SIZEOF_HEADER ≤ capacity := by
    intro x hx hd
    obtain ⟨a, ha⟩ := h16
    obtain ⟨b, hb⟩ := hd
    simp only [SIZEOF_HEADER]
    omega
  refine ⟨rfl, hal, hwal, hfit _ hlt hal, hfit _ hwlt hwal, fun j => ?_, fun j seen => ?_⟩
  · obtain ⟨a, b, c, d, e⟩ := iterate_evictOne_aligned h0 h16 hcap hlt hal j
    refine ⟨e, hfit _ d e, c, ?_⟩
    simp only [RingBuffer.Read, a]
    exact readBytes_contiguous _ _ _ _ (by rw [b]; exact hs) (hfit _ d e)
  · obtain ⟨a, b, c, d, e⟩ := flushAfter_aligned h0 h16 hcap hlt hal seen j
    refine ⟨e, hfit _ d e, ?_⟩
    simp only [RingBuffer.Read, a]
    exact readBytes_contiguous _ _ _ _ (by rw [b]; exact hs) (hfit _ d e)

/-- Witness of C18: the example state, whose capacity 176 is a multiple of 16. -/
theorem headers_never_wrap_witness :
    0 < 176 ∧ 16 ∣ 176 ∧ Reachable 176 exampleCalls exampleState ∧
    SIZEOF_HEADER = 16 ∧ 16 ∣ exampleState.cb_.read ∧ 16 ∣ exampleState.cb_.write ∧
    exampleState.cb_.read + SIZEOF_HEADER ≤ 176 ∧
    exampleState.cb_.write + SIZEOF_HEADER ≤ 176 ∧
    (∀ j, 16 ∣ (evictOne^[j] exampleState.cb_).read ∧
      (evictOne^[j] exampleState.cb_).read + SIZEOF_HEADER ≤ 176 ∧
      (evictOne^[j] exampleState.cb_).write = exampleState.cb_.write ∧
      ((evictOne^[j] exampleState.cb_).Read SIZEOF_HEADER).1
        = ((evictOne^[j] exampleState.cb_).storage.drop
            (evictOne^[j] exampleState.cb_).read).take SIZEOF_HEADER) ∧
    (∀ j seen, 16 ∣ (flushAfter j exampleState.cb_ seen).1.read ∧
      (flushAfter j exampleState.cb_ seen).1.read + SIZEOF_HEADER ≤ 176 ∧
      ((flushAfter j exampleState.cb_ seen).1.Read SIZEOF_HEADER).1
        = ((flushAfter j exampleState.cb_ seen).1.storage.drop
            (flushAfter j exampleState.cb_ seen).1.read).take SIZEOF_HEADER) :=
  ⟨by decide, by decide, exampleState_reachable,
    headers_never_wrap (by decide) (by decide) exampleState_reachable⟩

/-- C19. No length truncation: for every successful `outputBuffer` call on a buffer whose
capacity is below `2 ^ 32`, `size ≤ capacity - sizeof(Header)`, so the narrowing of `size` into
the 32-bit `header.length` is exact, and the length read back from the stored header, which
eviction and flush use, is the number of payload bytes written after it. -/
theorem stored_length_is_exact {capacity : Nat} {calls : List Call} {self : State}
    {fuel : Nat} {mem : List Nat} {timestamp_us : Int} {flags : Nat} {out : Outcome}
    (hc : capacity < 2 ^ 32) (hr : Reachable capacity calls self)
    (hm : mem.length < 2 ^ 63)
    (e : outputBuffer fuel self mem timestamp_us flags = some out) (hok : out.error = none) :
    SIZEOF_HEADER ≤ capacity ∧ mem.length ≤ capacity - SIZEOF_HEADER ∧
    mem.length % 2 ^ 32 = mem.length ∧
    (newFrame mem timestamp_us flags).header.length = mem.length ∧
    (Header.ofBytes (readBytes out.state.cb_.storage capacity self.cb_.write
      SIZEOF_HEADER)).length = mem.length ∧
    readBytes out.state.cb_.storage capacity (self.cb_.write + SIZEOF_HEADER)
      (Header.ofBytes (readBytes out.state.cb_.storage capacity self.cb_.write
        SIZEOF_HEADER)).length = mem := by
  have hcap := hr.capacity_eq.1
  have hlen0 := hr.storage_length
  obtain ⟨cb2, exit, he, hthrew, henough⟩ := outputBuffer_inv e
  cases exit with
  | threw => rw [hthrew rfl] at hok; exact absurd hok (by simp)
  | enoughSpace =>
    obtain ⟨hcap2, hst, hwr⟩ := evictLoop_frame he
    obtain ⟨k, _, _, hfit, _⟩ := evictLoop_iterate he
    have hfit2 := hfit rfl
    rw [need_eq _ hm] at hfit2
    have hav := available_le_capacity cb2
    have hf : footprintOfSize mem.length = SIZEOF_HEADER + mem.length + padTo16 mem.length := rfl
    have h16 : SIZEOF_HEADER = 16 := rfl
    have hlen : mem.length % 2 ^ 32 = mem.length := Nat.mod_eq_of_lt (by omega)
    obtain ⟨hb1, hb2⟩ := stored_frame_readable cb2 (newFrame mem timestamp_us flags).header mem
      (padOfSize mem.length) (by rw [hst, hcap2, hcap]; exact hlen0) (by omega)
    have hhead : (Header.ofBytes (readBytes out.state.cb_.storage capacity self.cb_.write
        SIZEOF_HEADER)).length = mem.length := by
      rw [henough rfl]
      simp only
      rw [← hcap, ← hcap2, ← hwr, hb1, Header.ofBytes_bytes_length]
      simp only [newFrame, Nat.mod_mod, hlen]
    refine ⟨by omega, by omega, hlen, by simp only [newFrame, hlen], hhead, ?_⟩
    rw [hhead, henough rfl]
    simp only
    rw [← hcap, ← hcap2, ← hwr]
    exact hb2

/-- Witness of C19: the call with 20 payload bytes on the example state. -/
theorem stored_length_is_exact_witness :
    176 < 2 ^ 32 ∧ Reachable 176 exampleCalls exampleState ∧
    (List.replicate 20 7).length < 2 ^ 63 ∧
    outputBuffer 12 exampleState (List.replicate 20 7) 6000 0 = some exampleAppended ∧
    exampleAppended.error = none ∧
    SIZEOF_HEADER ≤ 176 ∧ (List.replicate 20 7).length ≤ 176 - SIZEOF_HEADER ∧
    (List.replicate 20 7).length % 2 ^ 32 = (List.replicate 20 7).length ∧
    (newFrame (List.replicate 20 7) 6000 0).header.length = (List.replicate 20 7).length ∧
    (Header.ofBytes (readBytes exampleAppended.state.cb_.storage 176 exampleState.cb_.write
      SIZEOF_HEADER)).length = (List.replicate 20 7).length ∧
    readBytes exampleAppended.state.cb_.storage 176 (exampleState.cb_.write + SIZEOF_HEADER)
      (Header.ofBytes (readBytes exampleAppended.state.cb_.storage 176 exampleState.cb_.write
        SIZEOF_HEADER)).length = List.replicate 20 7 :=
  ⟨by decide, exampleState_reachable, by decide, exampleAppended_eq, by decide!,
    stored_length_is_exact (by decide) exampleState_reachable (by decide)
      exampleAppended_eq (by decide!)⟩

/-! ## Frames resident in the buffer with counting cursors -/

namespace Counting

theorem counting_available {cb : RingBuffer} {fs : List Frame} (h : Resident cb fs) :
    cb.Available = cb.capacity - footprints fs := by
  obtain ⟨_, _, hw, _⟩ := h
  simp only [RingBuffer.Available, hw, Nat.add_sub_cancel_left]

theorem counting_empty_iff {cb : RingBuffer} {fs : List Frame} (h : Resident cb fs) :
    cb.Empty = true ↔ fs = [] := by
  obtain ⟨_, _, hw, _⟩ := h
  simp only [RingBuffer.Empty, beq_iff_eq]
  constructor
  · intro e
    exact footprints_eq_zero (by omega)
  · intro e
    subst e
    simp only [footprints, Nat.add_zero] at hw
    exact hw.symm

theorem counting_create (capacity : Nat) : Resident (RingBuffer.create capacity) [] := by
  simp [Resident, RingBuffer.create, footprints, storedAt]

theorem counting_length_lt {cb : RingBuffer} {fs : List Frame} (h : Resident cb fs)
    (hc : cb.capacity ≤ 2 ^ 32) {f : Frame} (hf : f ∈ fs) : f.header.length + 16 ≤ 2 ^ 32 := by
  obtain ⟨_, hu, _, _⟩ := h
  have := footprint_le_footprints hf
  have e : f.footprint = 16 + f.header.length + padTo16 f.header.length := rfl
  omega

theorem counting_header_read {cb : RingBuffer} {f : Frame} {fs : List Frame}
    (h : Resident cb (f :: fs)) (hc : cb.capacity ≤ 2 ^ 32) :
    (Header.ofBytes (cb.Read SIZEOF_HEADER).1).length = f.header.length ∧
    (Header.ofBytes (cb.Read SIZEOF_HEADER).1).keyframe = f.header.keyframe := by
  have hl := counting_length_lt h hc (List.mem_cons_self f fs)
  obtain ⟨_, _, _, h1, _, _⟩ := h
  simp only [RingBuffer.Read, h1, Header.ofBytes_bytes_length, Header.ofBytes_bytes_keyframe]
  exact ⟨Nat.mod_eq_of_lt (by omega), trivial⟩

theorem counting_advance {cb : RingBuffer} {f : Frame} {fs : List Frame}
    (h : Resident cb (f :: fs)) (cb2 : RingBuffer) (hcap : cb2.capacity = cb.capacity)
    (hst : cb2.storage = cb.storage) (hwr : cb2.write = cb.write)
    (hrd : cb2.read = cb.read + f.footprint) : Resident cb2 fs := by
  obtain ⟨hs, hu, hw, h1, h2, h3⟩ := h
  simp only [footprints] at hu hw
  refine ⟨by rw [hst, hcap, hs], by rw [hcap]; omega, by rw [hwr, hw, hrd, Nat.add_assoc], ?_⟩
  rw [hst, hcap, hrd]
  exact h3

theorem counting_evictOne_read {cb : RingBuffer} {f : Frame} {fs : List Frame}
    (h : Resident cb (f :: fs)) (hc : cb.capacity ≤ 2 ^ 32) :
    (evictOne cb).read = cb.read + f.footprint := by
  have hl := counting_length_lt h hc (List.mem_cons_self f fs)
  have e := (counting_header_read h hc).1
  simp only [evictOne, RingBuffer.Skip, e, skipWhole_eq _ (show f.header.length + 15 < 2 ^ 32 by
    omega)]
  simp only [RingBuffer.Read, Frame.footprint, Nat.add_assoc]

theorem counting_evictOne_resident {cb : RingBuffer} {f : Frame} {fs : List Frame}
    (h : Resident cb (f :: fs)) (hc : cb.capacity ≤ 2 ^ 32) : Resident (evictOne cb) fs :=
  counting_advance h (evictOne cb) rfl rfl rfl (counting_evictOne_read h hc)

theorem counting_payload_read {cb : RingBuffer} {f : Frame} {fs : List Frame}
    (h : Resident cb (f :: fs)) :
    ((cb.Read SIZEOF_HEADER).2.Read f.header.length).1 = f.payload := by
  obtain ⟨_, _, _, _, h2, _⟩ := h
  simp only [RingBuffer.Read, h2]

theorem counting_after_payload {cb : RingBuffer} {f : Frame} {fs : List Frame}
    (h : Resident cb (f :: fs)) :
    Resident (((cb.Read SIZEOF_HEADER).2.Read f.header.length).2.Skip (skipPad f.header.length))
      fs := by
  refine counting_advance h (((cb.Read SIZEOF_HEADER).2.Read f.header.length).2.Skip
    (skipPad f.header.length)) rfl rfl rfl ?_
  simp only [RingBuffer.Skip, RingBuffer.Read, skipPad_eq, Frame.footprint, Nat.add_assoc]

theorem counting_write_frame {cb : RingBuffer} {fs : List Frame} (h : Resident cb fs)
    (header : Header) (mem : List Nat) (pad : Nat) (hl : header.length = mem.length)
    (hp : pad = padTo16 mem.length)
    (hle : footprints fs + (16 + mem.length + pad) ≤ cb.capacity) :
    Resident (((cb.Write header.bytes).Write mem).Pad pad)
      (fs ++ [{ header := header, payload := mem }]) := by
  obtain ⟨hs, hu, hw, h1⟩ := h
  have hst : (((cb.Write header.bytes).Write mem).Pad pad).storage
      = writeAt cb.storage cb.capacity (cb.read + footprints fs) (header.bytes ++ mem) := by
    simp only [RingBuffer.Pad, RingBuffer.Write]
    rw [writeAt_append, hw]
  have hwr : (((cb.Write header.bytes).Write mem).Pad pad).write
      = cb.read + footprints fs + (16 + mem.length + pad) := by
    simp only [RingBuffer.Pad, RingBuffer.Write, Header.length_bytes, hw, Nat.add_assoc]
  have hlen : (header.bytes ++ mem).length = 16 + mem.length := by
    rw [List.length_append, Header.length_bytes]
  have hrb : readBytes (writeAt cb.storage cb.capacity (cb.read + footprints fs)
      (header.bytes ++ mem)) cb.capacity (cb.read + footprints fs) (16 + mem.length)
      = header.bytes ++ mem := by
    rw [← hlen]
    exact readBytes_writeAt_same _ _ _ _ hs (by omega)
  rw [readBytes_add] at hrb
  have hsplit := List.append_inj hrb (by rw [length_readBytes, Header.length_bytes])
  have hfp : footprints (fs ++ [{ header := header, payload := mem }])
      = footprints fs + (16 + mem.length + pad) := by
    rw [footprints_append]
    simp only [footprints, Frame.footprint, SIZEOF_HEADER, hl, hp, Nat.add_zero]
  have hc : (((cb.Write header.bytes).Write mem).Pad pad).capacity = cb.capacity := by
    simp only [RingBuffer.Pad, RingBuffer.Write]
  have hrd : (((cb.Write header.bytes).Write mem).Pad pad).read = cb.read := by
    simp only [RingBuffer.Pad, RingBuffer.Write]
  refine ⟨?_, ?_, ?_, ?_⟩
  · rw [hst, length_writeAt, hc]; exact hs
  · rw [hfp, hc]; exact hle
  · rw [hfp, hwr, hrd, Nat.add_assoc]
  · rw [hst, hc, hrd, storedAt_append]
    refine ⟨?_, ?_, ?_, trivial⟩
    · have := storedAt_writeAt (r := cb.read) (u := footprints fs) (header.bytes ++ mem)
        (by omega) fs 0 (by omega) h1
      exact this
    · exact hsplit.1
    · simp only [hl, SIZEOF_HEADER]; exact hsplit.2

/-! ## The eviction loop with counting cursors -/

theorem counting_evictLoop_frame {need : Nat} {fuel : Nat} {cb cb2 : RingBuffer}
    {exit : LoopExit} (h : evictLoop need fuel cb = some (cb2, exit)) :
    cb2.capacity = cb.capacity ∧ cb2.storage = cb.storage ∧ cb2.write = cb.write := by
  induction fuel generalizing cb with
  | zero => simp [evictLoop] at h
  | succ n ih =>
    simp only [evictLoop] at h
    split at h
    · split at h
      · cases h; exact ⟨rfl, rfl, rfl⟩
      · have := ih h
        exact this
    · cases h; exact ⟨rfl, rfl, rfl⟩

theorem counting_evictLoop_mono {need : Nat} {fuel : Nat} {cb : RingBuffer}
    {r : RingBuffer × LoopExit} (h : evictLoop need fuel cb = some r) {fuel2 : Nat}
    (hle : fuel ≤ fuel2) : evictLoop need fuel2 cb = some r := by
  induction fuel generalizing cb fuel2 with
  | zero => simp [evictLoop] at h
  | succ n ih =>
    obtain ⟨m, rfl⟩ : ∃ m, fuel2 = m + 1 := ⟨fuel2 - 1, by omega⟩
    simp only [evictLoop] at h ⊢
    split
    · rename_i h1
      rw [if_pos h1] at h
      split
      · rename_i h2
        rw [if_pos h2] at h
        exact h
      · rename_i h2
        rw [if_neg h2] at h
        exact ih h (by omega)
    · rename_i h1
      rw [if_neg h1] at h
      exact h

theorem counting_evictLoop_iterate {need : Nat} {fuel : Nat} {cb cb2 : RingBuffer}
    {exit : LoopExit} (h : evictLoop need fuel cb = some (cb2, exit)) :
    ∃ k, cb2 = evictOne^[k] cb ∧
      (∀ j, j < k → (evictOne^[j] cb).Available < need ∧ (evictOne^[j] cb).Empty = false) ∧
      (exit = LoopExit.enoughSpace → need ≤ cb2.Available) ∧
      (exit = LoopExit.threw → cb2.Available < need ∧ cb2.Empty = true) := by
  induction fuel generalizing cb with
  | zero => simp [evictLoop] at h
  | succ n ih =>
    simp only [evictLoop] at h
    by_cases h1 : need > cb.Available
    · rw [if_pos h1] at h
      by_cases h2 : cb.Empty = true
      · rw [if_pos h2] at h
        cases h
        exact ⟨0, rfl, fun j hj => absurd hj (by omega), fun e => (by cases e),
          fun _ => ⟨h1, h2⟩⟩
      · rw [if_neg h2] at h
        obtain ⟨k, hk, hj, he, ht⟩ := ih h
        refine ⟨k + 1, by rw [hk]; rfl, ?_, he, ht⟩
        intro j hlt
        cases j with
        | zero => exact ⟨h1, by simpa using h2⟩
        | succ j => exact hj j (by omega)
    · rw [if_neg h1] at h
      cases h
      exact ⟨0, rfl, fun j hj => absurd hj (by omega), fun _ => (by omega),
        fun e => (by cases e)⟩

theorem counting_iterate_resident {cb : RingBuffer} {fs : List Frame} (h : Resident cb fs)
    (hc : cb.capacity ≤ 2 ^ 32) (k : Nat)
    (hne : ∀ j, j < k → (evictOne^[j] cb).Empty = false) :
    ∀ j, j ≤ k → j ≤ fs.length ∧ (evictOne^[j] cb).capacity = cb.capacity ∧
      Resident (evictOne^[j] cb) (fs.drop j) ∧
      (evictOne^[j] cb).read = cb.read + footprints (fs.take j) := by
  intro j
  induction j with
  | zero =>
    intro _
    refine ⟨Nat.zero_le _, rfl, h, ?_⟩
    simp only [Function.iterate_zero, id_eq, List.take_zero, footprints, Nat.add_zero]
  | succ j ih =>
    intro hj
    obtain ⟨hlen, hcap, hres, hread⟩ := ih (by omega)
    have hem := hne j (by omega)
    cases hd : fs.drop j with
    | nil =>
      rw [hd] at hres
      rw [(counting_empty_iff hres).2 rfl] at hem
      exact absurd hem (by simp)
    | cons f rest =>
      rw [hd] at hres
      have hjl : j < fs.length := by
        by_contra hcon
        rw [List.drop_eq_nil_of_le (by omega)] at hd
        exact absurd hd (by simp)
      have hdc := List.drop_eq_getElem_cons hjl
      rw [hd] at hdc
      obtain ⟨hf, hrest⟩ := List.cons.inj hdc
      have hget : fs[j]? = some f := by
        rw [List.getElem?_eq_getElem hjl, hf]
      have hrest := hrest.symm
      have htake : footprints (fs.take (j + 1)) = footprints (fs.take j) + f.footprint := by
        rw [List.take_succ, hget, footprints_append]
        simp [footprints]
      refine ⟨hjl, ?_, ?_, ?_⟩
      · rw [Function.iterate_succ_apply']; exact hcap
      · rw [Function.iterate_succ_apply', hrest]
        exact counting_evictOne_resident hres (by omega)
      · rw [Function.iterate_succ_apply', counting_evictOne_read hres (by omega), hread, htake,
          Nat.add_assoc]

theorem counting_evictLoop_returns (need : Nat) (fs : List Frame) :
    ∀ (cb : RingBuffer) (fuel : Nat), Resident cb fs → cb.capacity ≤ 2 ^ 32 →
      fs.length < fuel → ∃ r, evictLoop need fuel cb = some r := by
  induction fs with
  | nil =>
    intro cb fuel h hc hf
    obtain ⟨n, rfl⟩ : ∃ n, fuel = n + 1 := ⟨fuel - 1, by omega⟩
    have hem := (counting_empty_iff h).2 rfl
    simp only [evictLoop, hem, if_true]
    split
    · exact ⟨_, rfl⟩
    · exact ⟨_, rfl⟩
  | cons f fs ih =>
    intro cb fuel h hc hf
    obtain ⟨n, rfl⟩ : ∃ n, fuel = n + 1 := ⟨fuel - 1, by omega⟩
    have hem : cb.Empty = false := by
      cases he : cb.Empty
      · rfl
      · exact absurd ((counting_empty_iff h).1 he) (by simp)
    simp only [evictLoop, hem]
    split
    · exact ih (evictOne cb) n (counting_evictOne_resident h hc) hc (by simpa using hf)
    · exact ⟨_, rfl⟩

/-! ## outputBuffer with counting cursors -/

theorem counting_outputBuffer_inv {fuel : Nat} {self : State} {mem : List Nat}
    {timestamp_us : Int} {flags : Nat} {out : Outcome}
    (h : outputBuffer fuel self mem timestamp_us flags = some out) :
    ∃ cb2 exit,
      evictLoop ((mem.length + padOfSize mem.length + SIZEOF_HEADER) % 2 ^ 64) fuel self.cb_
        = some (cb2, exit) ∧
      (exit = LoopExit.threw →
        out = { state := { cb_ := cb2, fp_ := self.fp_ },
                error := some "circular buffer too small" }) ∧
      (exit = LoopExit.enoughSpace →
        out = { state := { cb_ := ((cb2.Write (newFrame mem timestamp_us flags).header.bytes).Write
                             mem).Pad (padOfSize mem.length), fp_ := self.fp_ },
                error := none }) := by
  simp only [outputBuffer] at h
  split at h
  · exact absurd h (by simp)
  · rename_i cb he
    cases h
    exact ⟨cb, LoopExit.threw, he, fun _ => rfl, fun e => (by cases e)⟩
  · rename_i cb he
    cases h
    refine ⟨cb, LoopExit.enoughSpace, he, fun e => (by cases e), fun _ => ?_⟩
    simp only [newFrame]

theorem counting_outputBuffer_of_exit {fuel : Nat} {self : State} {mem : List Nat}
    {timestamp_us : Int} {flags : Nat} {cb2 : RingBuffer}
    (he : evictLoop ((mem.length + padOfSize mem.length + SIZEOF_HEADER) % 2 ^ 64) fuel
      self.cb_ = some (cb2, LoopExit.enoughSpace)) :
    outputBuffer fuel self mem timestamp_us flags
      = some { state := { cb_ := ((cb2.Write (newFrame mem timestamp_us flags).header.bytes).Write
                            mem).Pad (padOfSize mem.length), fp_ := self.fp_ },
               error := none } := by
  simp only [outputBuffer, he, newFrame]

theorem counting_capacity_eq {capacity : Nat} {calls : List Call} {self : State}
    (h : Reachable capacity calls self) : self.cb_.capacity = capacity ∧ self.fp_ = [] := by
  induction h with
  | create => exact ⟨rfl, rfl⟩
  | @call calls self fuel c out _ _ e ih =>
    obtain ⟨cb2, exit, he, hthrew, henough⟩ := counting_outputBuffer_inv e
    obtain ⟨hcap, _, _⟩ := counting_evictLoop_frame he
    cases exit with
    | threw =>
      rw [hthrew rfl]
      exact ⟨hcap.trans ih.1, ih.2⟩
    | enoughSpace =>
      rw [henough rfl]
      simp only [RingBuffer.Pad, RingBuffer.Write]
      exact ⟨hcap.trans ih.1, ih.2⟩

theorem counting_exit_resident {self : State} {F : List Frame} {need fuel : Nat}
    {cb2 : RingBuffer} {exit : LoopExit} (hc : self.cb_.capacity ≤ 2 ^ 32)
    (hres : Resident self.cb_ F)
    (he : evictLoop need fuel self.cb_ = some (cb2, exit)) :
    ∃ k, k ≤ F.length ∧ cb2 = evictOne^[k] self.cb_ ∧ cb2.capacity = self.cb_.capacity ∧
      Resident cb2 (F.drop k) ∧
      (∀ j, j < k → ∃ f, F[j]? = some f ∧ Resident (evictOne^[j] self.cb_) (F.drop j) ∧
        (evictOne^[j + 1] self.cb_).read = (evictOne^[j] self.cb_).read + f.footprint) ∧
      (exit = LoopExit.enoughSpace → need ≤ cb2.Available) ∧
      (exit = LoopExit.threw → cb2.Empty = true ∧ k = F.length) := by
  obtain ⟨k, hk, hne, hen, hth⟩ := counting_evictLoop_iterate he
  have hit := counting_iterate_resident hres hc k (fun j hj => (hne j hj).2)
  obtain ⟨hkl, hcapk, hresk, _⟩ := hit k (Nat.le_refl k)
  rw [← hk] at hresk hcapk
  refine ⟨k, hkl, hk, hcapk, hresk, ?_, hen, ?_⟩
  · intro j hj
    obtain ⟨hjl, hcapj, hresj, _⟩ := hit j (by omega)
    have hjl2 := (hit (j + 1) (by omega)).1
    have hdc := List.drop_eq_getElem_cons (show j < F.length by omega)
    rw [hdc] at hresj
    refine ⟨F[j], List.getElem?_eq_getElem _, by rw [hdc]; exact hresj, ?_⟩
    rw [Function.iterate_succ_apply', counting_evictOne_read hresj (by omega)]
  · intro e
    obtain ⟨_, h2⟩ := hth e
    refine ⟨h2, ?_⟩
    have h3 := (counting_empty_iff hresk).1 h2
    have h4 := congrArg List.length h3
    simp only [List.length_drop, List.length_nil] at h4
    omega

theorem counting_stored_after_exit {cb2 : RingBuffer} {G : List Frame} (hres : Resident cb2 G)
    (hc : cb2.capacity ≤ 2 ^ 32) (mem : List Nat) (timestamp_us : Int) (flags : Nat)
    (hm : mem.length < 2 ^ 63)
    (hfit : (mem.length + padOfSize mem.length + SIZEOF_HEADER) % 2 ^ 64 ≤ cb2.Available) :
    Resident (((cb2.Write (newFrame mem timestamp_us flags).header.bytes).Write mem).Pad
      (padOfSize mem.length)) (G ++ [newFrame mem timestamp_us flags]) := by
  rw [need_eq _ hm, counting_available hres] at hfit
  have hu := hres.2.1
  have hf : footprintOfSize mem.length = 16 + mem.length + padTo16 mem.length := rfl
  have hlen : mem.length % 2 ^ 32 = mem.length := Nat.mod_eq_of_lt (by omega)
  have := counting_write_frame hres (newFrame mem timestamp_us flags).header mem
    (padOfSize mem.length) (by simp only [newFrame, hlen]) (padOfSize_eq _)
    (by rw [padOfSize_eq]; omega)
  simpa only [newFrame] using this

theorem counting_reachable_resident {capacity : Nat} {calls : List Call} {self : State}
    (h : Reachable capacity calls self) (hc : capacity ≤ 2 ^ 32) :
    ∃ k, Resident self.cb_ ((calls.map Call.frame).drop k) := by
  induction h with
  | create => exact ⟨0, counting_create capacity⟩
  | @call calls self fuel c out hr hm e ih =>
    obtain ⟨n, hres⟩ := ih
    have hcap := (counting_capacity_eq hr).1
    obtain ⟨cb2, exit, he, hthrew, henough⟩ := counting_outputBuffer_inv e
    obtain ⟨k, hkl, _, hcapk, hresk, _, hen, hth⟩ :=
      counting_exit_resident (by omega) hres he
    cases exit with
    | threw =>
      obtain ⟨_, hk⟩ := hth rfl
      refine ⟨(List.map Call.frame (calls ++ [c])).length, ?_⟩
      rw [List.drop_length, hthrew rfl]
      rw [hk, List.drop_length] at hresk
      exact hresk
    | enoughSpace =>
      have h3 := counting_stored_after_exit hresk (by omega) c.mem c.timestamp_us c.flags hm
        (hen rfl)
      rw [henough rfl]
      by_cases hn : n + k ≤ calls.length
      · refine ⟨n + k, ?_⟩
        rw [List.map_append, List.drop_append_of_le_length (by simpa using hn),
          ← List.drop_drop]
        exact h3
      · refine ⟨calls.length, ?_⟩
        have hd0 : List.drop k (List.drop n (List.map Call.frame calls)) = [] := by
          rw [List.drop_drop]
          exact List.drop_eq_nil_of_le (by simp; omega)
        rw [hd0] at h3
        rw [List.map_append, List.drop_append_of_le_length (by simp),
          List.drop_eq_nil_of_le (by simp)]
        exact h3

theorem counting_appendAll_reachable {capacity : Nat} {fuel : Nat} (cs : List Call) :
    ∀ {calls : List Call} {self st : State}, Reachable capacity calls self →
      (∀ c, c ∈ cs → c.mem.length < 2 ^ 63) → appendAll fuel self cs = some st →
      Reachable capacity (calls ++ cs) st := by
  induction cs with
  | nil =>
    intro calls self st hr _ e
    simp only [appendAll, Option.some.injEq] at e
    subst e
    simpa using hr
  | cons c cs ih =>
    intro calls self st hr hm e
    simp only [appendAll] at e
    cases ho : outputBuffer fuel self c.mem c.timestamp_us c.flags with
    | none => rw [ho] at e; exact absurd e (by simp)
    | some out =>
      rw [ho] at e
      by_cases he : out.error = none
      · dsimp only at e
        rw [if_pos he] at e
        have h1 := Reachable.call hr (hm c (List.mem_cons_self c cs)) ho
        have h2 := ih h1 (fun d hd => hm d (List.mem_cons_of_mem c hd)) e
        simpa using h2
      · dsimp only at e
        rw [if_neg he] at e
        exact absurd e (by simp)

/-! ## The round trip with counting cursors -/

theorem counting_drainLoop_spec (fs : List Frame) :
    ∀ (cb : RingBuffer) (fuel : Nat) (acc : List Frame), Resident cb fs →
      cb.capacity ≤ 2 ^ 32 → fs.length < fuel →
      (∀ f, f ∈ fs → -2 ^ 63 ≤ f.header.timestamp ∧ f.header.timestamp < 2 ^ 63) →
      drainLoop fuel cb acc = some (acc ++ fs, cb.drained) := by
  induction fs with
  | nil =>
    intro cb fuel acc h hc hf _
    obtain ⟨n, rfl⟩ : ∃ n, fuel = n + 1 := ⟨fuel - 1, by omega⟩
    have hem := (counting_empty_iff h).2 rfl
    have hrw : cb.read = cb.write := by simpa [RingBuffer.Empty] using hem
    have hd : cb.drained = cb := by
      cases cb
      simp only [RingBuffer.drained] at hrw ⊢
      simp only [hrw]
    simp only [drainLoop, hem, hd, List.append_nil, Bool.not_true, Bool.false_eq_true, if_false]
  | cons f fs ih =>
    intro cb fuel acc h hc hf hts
    obtain ⟨n, rfl⟩ : ∃ n, fuel = n + 1 := ⟨fuel - 1, by omega⟩
    have hem : cb.Empty = false := by
      cases he : cb.Empty
      · rfl
      · exact absurd ((counting_empty_iff h).1 he) (by simp)
    have hlen := counting_length_lt h hc (List.mem_cons_self f fs)
    have hts0 := hts f (List.mem_cons_self f fs)
    have hhead : Header.ofBytes (cb.Read SIZEOF_HEADER).1 = f.header := by
      have := h.2.2.2.1
      simp only [RingBuffer.Read, this]
      exact Header.ofBytes_bytes _ (by omega) hts0.1 hts0.2
    have h2 := counting_after_payload h
    have hd : (((cb.Read SIZEOF_HEADER).2.Read f.header.length).2.Skip
        (skipPad f.header.length)).drained = cb.drained := rfl
    simp only [drainLoop, hem, hhead, Bool.not_false, if_true]
    rw [counting_payload_read h, ih _ n _ h2 hc (by simpa using hf)
      (fun g hg => hts g (List.mem_cons_of_mem f hg)), hd]
    simp only [List.append_assoc, List.singleton_append]

theorem counting_appendAll_without_eviction {fuel : Nat} (cs : List Call) :
    ∀ (self : State) (fs : List Frame), Resident self.cb_ fs → self.cb_.capacity ≤ 2 ^ 32 →
      footprints fs + cumulativeFootprint cs ≤ self.cb_.capacity → 0 < fuel →
      ∃ st, appendAll fuel self cs = some st ∧ st.cb_.capacity = self.cb_.capacity ∧
        st.cb_.read = self.cb_.read ∧ Resident st.cb_ (fs ++ cs.map Call.exact) := by
  induction cs with
  | nil =>
    intro self fs h _ _ _
    exact ⟨self, rfl, rfl, rfl, by simpa using h⟩
  | cons c cs ih =>
    intro self fs h hc hsum hf
    simp only [cumulativeFootprint, padOfSize_eq] at hsum
    have hfp : footprintOfSize c.mem.length = SIZEOF_HEADER + c.mem.length
        + padTo16 c.mem.length := rfl
    have h16 : SIZEOF_HEADER = 16 := rfl
    have hl : c.mem.length < 2 ^ 32 := by omega
    have hfr : newFrame c.mem c.timestamp_us c.flags = c.exact := by
      simp only [newFrame, Call.exact, Nat.mod_eq_of_lt hl]
    obtain ⟨n, rfl⟩ : ∃ n, fuel = n + 1 := ⟨fuel - 1, by omega⟩
    have hav := counting_available h
    have hneed := need_eq c.mem.length (by omega)
    have hexit : evictLoop ((c.mem.length + padOfSize c.mem.length + SIZEOF_HEADER) % 2 ^ 64)
        (n + 1) self.cb_ = some (self.cb_, LoopExit.enoughSpace) := by
      simp only [evictLoop]
      rw [if_neg (by rw [hneed, hav]; omega)]
    have hout := @counting_outputBuffer_of_exit (n + 1) self c.mem c.timestamp_us c.flags
      self.cb_ hexit
    have hres2 := counting_stored_after_exit h hc c.mem c.timestamp_us c.flags (by omega)
      (by rw [hneed, hav]; omega)
    obtain ⟨cbN, hN⟩ : ∃ cbN, cbN = ((self.cb_.Write
        (newFrame c.mem c.timestamp_us c.flags).header.bytes).Write c.mem).Pad
        (padOfSize c.mem.length) := ⟨_, rfl⟩
    have hcapN : cbN.capacity = self.cb_.capacity := by
      rw [hN]; simp only [RingBuffer.Pad, RingBuffer.Write]
    have hrdN : cbN.read = self.cb_.read := by
      rw [hN]; simp only [RingBuffer.Pad, RingBuffer.Write]
    rw [← hN] at hout hres2
    rw [hfr] at hres2
    have hfp2 : footprints (fs ++ [c.exact]) = footprints fs + footprintOfSize c.mem.length := by
      rw [footprints_append]
      simp only [footprints, Frame.footprint, Call.exact, Nat.add_zero, footprintOfSize]
    obtain ⟨st, e2, hcap2, hrd2, hres3⟩ := ih { cb_ := cbN, fp_ := self.fp_ } (fs ++ [c.exact])
      hres2 (hcapN.trans_le hc) (by rw [hfp2]; simp only [hcapN]; omega) hf
    refine ⟨st, ?_, hcap2.trans hcapN, hrd2.trans hrdN, by simpa using hres3⟩
    simp only [appendAll, hout, if_true]
    exact e2

/-! ## The concrete scenario with counting cursors -/

theorem scenarioAB_reachable : Reachable 64 [frameA, frameB] scenarioAB := by
  have h : Reachable 64 ([] ++ [frameA, frameB]) scenarioAB :=
    @counting_appendAll_reachable 64 3 [frameA, frameB] [] (State.create 64) scenarioAB
      Reachable.create (by decide) (by decide!)
  exact h

theorem scenarioAB_resident : Resident scenarioAB.cb_ [frameA.frame, frameB.frame] := by
  decide!

theorem scenarioABC_eq :
    outputBuffer 3 scenarioAB frameC.mem frameC.timestamp_us frameC.flags
      = some { state := scenarioABC, error := none } := by
  decide!

/-! ## Round trip, concrete scenario and whole-frame eviction -/

/-- C2. Round trip: for every sequence of calls on an initially empty buffer whose cumulative
footprint (the sum of `sizeof(Header) + size + pad` over the frames) does not exceed the
capacity, every call succeeds, and draining the buffer until `Empty()` (read a header, read
`header.length` payload bytes, skip the pad) yields exactly the appended frames in append
order, each with its exact length, keyframe flag, timestamp and payload bytes. -/
theorem round_trip {capacity : Nat} (calls : List Call)
    (hc : capacity ≤ 2 ^ 32) (hsum : cumulativeFootprint calls ≤ capacity)
    (hts : ∀ c, c ∈ calls → -2 ^ 63 ≤ c.timestamp_us ∧ c.timestamp_us < 2 ^ 63)
    (fuel : Nat) (hf : calls.length < fuel) :
    ∃ st, appendAll fuel (State.create capacity) calls = some st ∧
      drainLoop fuel st.cb_ [] = some (calls.map Call.exact, st.cb_.drained) := by
  obtain ⟨st, e, hcap, _, hres⟩ := @counting_appendAll_without_eviction fuel calls
    (State.create capacity) [] (counting_create capacity) hc
    (by simpa [footprints] using hsum) (by omega)
  refine ⟨st, e, ?_⟩
  simp only [List.nil_append] at hres
  have := counting_drainLoop_spec _ st.cb_ fuel [] hres (by rw [hcap]; exact hc)
    (by simpa using hf)
    (by
      intro f hf
      obtain ⟨c, hc1, hc2⟩ := List.mem_map.1 hf
      rw [← hc2]
      exact hts c hc1)
  simpa using this

/-- Witness of C2: A and B of the concrete scenario, whose cumulative footprint is exactly the
capacity of 64 bytes. -/
theorem round_trip_witness :
    64 ≤ 2 ^ 32 ∧ cumulativeFootprint [frameA, frameB] = 64 ∧
    (∀ c, c ∈ [frameA, frameB] → -2 ^ 63 ≤ c.timestamp_us ∧ c.timestamp_us < 2 ^ 63) ∧
    [frameA, frameB].length < 3 ∧
    ∃ st, appendAll 3 (State.create 64) [frameA, frameB] = some st ∧
      drainLoop 3 st.cb_ [] = some ([frameA, frameB].map Call.exact, st.cb_.drained) :=
  ⟨by decide, by decide, by decide, by decide,
    round_trip [frameA, frameB] (by decide) (by decide) (by decide) 3 (by decide)⟩

/-- C3. Concrete scenario: with a capacity of 64 bytes and a header of 16 bytes, appending A
(keyframe, 8 bytes) and B (8 bytes) to the empty buffer fills it; the append of C (8 bytes)
needs 32 bytes, its eviction loop evicts exactly the frame A, advancing the read cursor by the
footprint of A, before C is written; the buffer then holds exactly B followed by C, and the
flush writes zero bytes. -/
theorem scenario_evicts_A_and_flush_writes_nothing :
    SIZEOF_HEADER = 16 ∧
    appendAll 3 (State.create 64) [frameA, frameB] = some scenarioAB ∧
    Resident scenarioAB.cb_ [frameA.frame, frameB.frame] ∧
    scenarioAB.cb_.Available = 0 ∧ scenarioAB.cb_.Empty = false ∧
    (frameC.mem.length + padOfSize frameC.mem.length + SIZEOF_HEADER) % 2 ^ 64 = 32 ∧
    evictLoop 32 3 scenarioAB.cb_ = some (evictOne scenarioAB.cb_, LoopExit.enoughSpace) ∧
    (evictOne scenarioAB.cb_).read = scenarioAB.cb_.read + frameA.frame.footprint ∧
    Resident (evictOne scenarioAB.cb_) [frameB.frame] ∧
    outputBuffer 3 scenarioAB frameC.mem frameC.timestamp_us frameC.flags
      = some { state := scenarioABC, error := none } ∧
    Resident scenarioABC.cb_ [frameB.frame, frameC.frame] ∧
    destructor 3 scenarioABC
      = some { state := { cb_ := scenarioABC.cb_.drained, fp_ := [] }, total := 0,
               frames := 0 } := by
  decide!

/-- C6. Whole-frame eviction: for every reachable state with resident frames `F` and every
successful `outputBuffer` call, the eviction loop runs some `k` iterations; the iteration `j`
starts with the resident frames `F.drop j` and advances the read cursor by exactly the
footprint (header, payload and pad) of the oldest of them, `F[j]`; the call ends with the read
cursor where the last iteration left it, and the resident frames are then the suffix
`F.drop k` of `F` followed by the new frame as the last element. -/
theorem eviction_advances_by_whole_frames {capacity : Nat} {calls : List Call} {self : State}
    {F : List Frame} {fuel : Nat} {mem : List Nat} {timestamp_us : Int} {flags : Nat}
    {out : Outcome} (hc : capacity ≤ 2 ^ 32) (hr : Reachable capacity calls self)
    (hres : Resident self.cb_ F) (hm : mem.length < 2 ^ 63)
    (e : outputBuffer fuel self mem timestamp_us flags = some out) (hok : out.error = none) :
    ∃ k, k ≤ F.length ∧
      (∀ j, j < k → ∃ f, F[j]? = some f ∧ Resident (evictOne^[j] self.cb_) (F.drop j) ∧
        (evictOne^[j + 1] self.cb_).read = (evictOne^[j] self.cb_).read + f.footprint) ∧
      out.state.cb_.read = (evictOne^[k] self.cb_).read ∧
      Resident out.state.cb_ (F.drop k ++ [newFrame mem timestamp_us flags]) := by
  have hcap := (counting_capacity_eq hr).1
  obtain ⟨cb2, exit, he, hthrew, henough⟩ := counting_outputBuffer_inv e
  cases exit with
  | threw =>
    rw [hthrew rfl] at hok
    exact absurd hok (by simp)
  | enoughSpace =>
    obtain ⟨k, hkl, hk, hcapk, hresk, hstep, hen, _⟩ :=
      counting_exit_resident (by omega) hres he
    have h3 := counting_stored_after_exit hresk (by omega) mem timestamp_us flags hm (hen rfl)
    rw [henough rfl]
    refine ⟨k, hkl, hstep, ?_, h3⟩
    simp only [RingBuffer.Pad, RingBuffer.Write, hk]

/-- Witness of C6: the append of C to the full buffer of the concrete scenario, which evicts
the oldest resident frame, A. -/
theorem eviction_advances_by_whole_frames_witness :
    64 ≤ 2 ^ 32 ∧ Reachable 64 [frameA, frameB] scenarioAB ∧
    Resident scenarioAB.cb_ [frameA.frame, frameB.frame] ∧
    frameC.mem.length < 2 ^ 63 ∧
    outputBuffer 3 scenarioAB frameC.mem frameC.timestamp_us frameC.flags
      = some { state := scenarioABC, error := none } ∧
    ∃ k, k ≤ [frameA.frame, frameB.frame].length ∧
      (∀ j, j < k → ∃ f, [frameA.frame, frameB.frame][j]? = some f ∧
        Resident (evictOne^[j] scenarioAB.cb_) ([frameA.frame, frameB.frame].drop j) ∧
        (evictOne^[j + 1] scenarioAB.cb_).read
          = (evictOne^[j] scenarioAB.cb_).read + f.footprint) ∧
      scenarioABC.cb_.read = (evictOne^[k] scenarioAB.cb_).read ∧
      Resident scenarioABC.cb_ ([frameA.frame, frameB.frame].drop k
        ++ [newFrame frameC.mem frameC.timestamp_us frameC.flags]) :=
  ⟨by decide, scenarioAB_reachable, scenarioAB_resident, by decide, scenarioABC_eq,
    eviction_advances_by_whole_frames (by decide) scenarioAB_reachable scenarioAB_resident
      (by decide) scenarioABC_eq rfl⟩

end Counting

end CircularOutput
